import Mathlib

/-!
Verification of the multi-player equilibrium engine of the n-channel
deception-jamming simulator.  The definitions below are a shallow embedding
of the TypeScript source (the `runEquilibrium` engine and its helpers):
JavaScript numbers are modelled as exact rationals (the spec states all
numeric identities "within floating-point tolerance", i.e. at the level of
real arithmetic), arrays are lists, and in-place row mutation is explicit
state passing.  The transcendental functions `Math.log` and `Math.log2`
only ever feed utility/rate report fields, never control flow, so they are
passed in as abstract functions `lg lg2 : ℚ → ℚ`; likewise the
`Math.random`/`seededRandom` stream used by the optional random
initializer is passed in as an explicit list of draws.  Out-of-range array
reads are modelled as the default 0, matching the `|| 0` guards the source
places on the reads that can go out of range in a run that returns.  One
error path escapes this totalization: the attacker-initialization call
passes the empty matrix as `y`, and under the `J3_optimization` strategy
`attackerGradient` dereferences `y[mm][i]` with no guard, which in
JavaScript throws a TypeError (reading `undefined[i]`) and aborts the run
before any iteration.  That throw condition is modelled explicitly by
`initJammerThrows`; `runEquilibrium` below describes the result object of
the runs whose initialization returns.
-/

namespace NChannel

inductive ChannelType where
  | real
  | decoy
  | inactive
deriving DecidableEq, Repr

inductive JammerStrategy where
  | J1_uniform
  | J2_topK
  | J3_optimization
deriving DecidableEq, Repr

inductive JammerObjective where
  | deception
  | oracle
deriving DecidableEq, Repr

inductive AttackerMode where
  | coordinated
  | independent
deriving DecidableEq, Repr

structure ChannelConfig where
  type : ChannelType
  owner : ℕ
deriving DecidableEq, Repr

structure EqParams where
  N : ℕ
  D : ℕ
  M : ℕ
  PT : List ℚ
  PJ : List ℚ
  sigma2 : ℚ
  tau : ℚ
  h : List (List ℚ)
  g : List (List ℚ)
  alpha : ℚ
  maxIter : ℕ
  epsilon : ℚ
  channelConfig : List ChannelConfig
  jammerStrategy : JammerStrategy
  jammerObjective : JammerObjective
  attackerMode : AttackerMode
  topK : ℕ
  randomInit : Bool
deriving DecidableEq, Repr

abbrev Mat := List (List ℚ)

/-- Read entry `i` of a vector, 0 when out of range (JS `v[i] || 0`). -/
def vget (v : List ℚ) (i : ℕ) : ℚ := v.getD i 0

/-- Read entry `(r, c)` of a matrix, 0 when out of range (JS `A[r]?.[c] || 0`). -/
def mget (A : Mat) (r c : ℕ) : ℚ := (A.getD r []).getD c 0

def cfg (P : EqParams) (i : ℕ) : ChannelConfig :=
  P.channelConfig.getD i { type := ChannelType.inactive, owner := 0 }

def hget (P : EqParams) (d i : ℕ) : ℚ := mget P.h d i

def gget (P : EqParams) (m i : ℕ) : ℚ := mget P.g m i

def ptget (P : EqParams) (d : ℕ) : ℚ := P.PT.getD d 0

def pjget (P : EqParams) (m : ℕ) : ℚ := P.PJ.getD m 0

/-- Imperative index-assignment loop: write each `(index, value)` pair into
the row in order (`row[i] = v`), starting from a given row. -/
def writeAll (row : List ℚ) (ps : List (ℕ × ℚ)) : List ℚ :=
  ps.foldl (fun acc p => acc.set p.1 p.2) row

/-- A fresh zero row of length `n` with the given writes applied
(`const a = new Array(n).fill(0); for ... a[i] = v`). -/
def scatter (n : ℕ) (ps : List (ℕ × ℚ)) : List ℚ :=
  writeAll (List.replicate n 0) ps

/-- `projectToSimplex` from the source: clamp negatives to zero; if the
clamped sum is positive rescale to the exact budget, otherwise fall back to
a uniform split of the budget over all slots. -/
def projectToSimplex (allocation : List ℚ) (budget : ℚ) : List ℚ :=
  let projected := allocation.map (fun v => max 0 v)
  let s := projected.sum
  if 0 < s then projected.map (fun v => v / s * budget)
  else projected.map (fun _ => budget / (projected.length : ℚ))

/-- `getActiveSet`: the channels whose type is not `inactive` and whose
owner currently powers them at or above the sensing threshold `tau`.  A JS
`Set` built by an ascending loop iterates in ascending index order, so the
set is represented as the ascending list of active indices. -/
def getActiveSet (x : Mat) (P : EqParams) : List ℕ :=
  (List.range P.N).filter (fun i =>
    !((cfg P i).type == ChannelType.inactive) &&
      decide (P.tau ≤ mget x (cfg P i).owner i))

/-- Total interference at channel `i`: `sigma2 + Σ_m y[m][i]·g[m][i]`.
This is the loop the source repeats inside every utility and gradient
computation. -/
def interference (P : EqParams) (y : Mat) (i : ℕ) : ℚ :=
  P.sigma2 + ((List.range P.M).map (fun m => mget y m i * gget P m i)).sum

/-- `calculateDefenderUtility`.  The `activeSet` argument is part of the
source signature but is never read by the source body; it is kept (unused)
for fidelity.  `lg` stands for `Math.log`. -/
def calculateDefenderUtility (lg : ℚ → ℚ) (d : ℕ) (x y : Mat) (P : EqParams)
    (_activeSet : List ℕ) (onlyReal : Bool) : ℚ :=
  ((List.range P.N).map (fun i =>
    let c := cfg P i
    if c.owner ≠ d then 0
    else if onlyReal && !(c.type == ChannelType.real) then 0
    else if !onlyReal && (c.type == ChannelType.inactive) then 0
    else
      let defenderPower := mget x d i
      if defenderPower ≤ 0 then 0
      else lg (1 + defenderPower * hget P d i / interference P y i))).sum

/-- `calculateAttackerUtility`: the negative of the summed defender
utilities, computed over real channels only for the oracle objective and
with `onlyReal = false` otherwise.  The player index `m` is part of the
source signature but unused by the source body. -/
def calculateAttackerUtility (lg : ℚ → ℚ) (_m : ℕ) (x y : Mat) (P : EqParams)
    (activeSet : List ℕ) : ℚ :=
  -(((List.range P.D).map (fun d =>
      if P.jammerObjective == JammerObjective.oracle then
        calculateDefenderUtility lg d x y P activeSet true
      else
        calculateDefenderUtility lg d x y P activeSet false)).sum)

/-- `defenderGradient`: rate gradient `h/(I + x·h)` on real channels, a
small maintenance constant on decoys (0.1 below `tau`, 0.01 once active). -/
def defenderGradient (d : ℕ) (x y : Mat) (P : EqParams) : List ℚ :=
  (List.range P.N).map (fun i =>
    let c := cfg P i
    if c.owner ≠ d then 0
    else if c.type == ChannelType.inactive then 0
    else
      let totalInterference := interference P y i
      let currentPower := mget x d i
      if c.type == ChannelType.real then
        hget P d i / (totalInterference + currentPower * hget P d i)
      else if currentPower < P.tau then (1 : ℚ) / 10
      else (1 : ℚ) / 100)

/-- `attackerGradient`: zero off the active set, zero on non-real channels
under the oracle objective, zero where the owner spends nothing, and
otherwise `(x·h·g)/(I·(I + x·h))`. -/
def attackerGradient (m : ℕ) (x y : Mat) (P : EqParams) (activeSet : List ℕ) :
    List ℚ :=
  (List.range P.N).map (fun i =>
    if !(activeSet.contains i) then 0
    else
      let c := cfg P i
      if (P.jammerObjective == JammerObjective.oracle) &&
          !(c.type == ChannelType.real) then 0
      else
        let defenderPower := mget x c.owner i
        if defenderPower ≤ 0 then 0
        else
          let totalInterference := interference P y i
          let sinr_term := defenderPower * hget P c.owner i
          sinr_term * gget P m i /
            (totalInterference * (totalInterference + sinr_term)))

/-- The per-channel eligibility filter an attacker applies on top of the
active set: everything under deception, real channels only under oracle. -/
def eligFilter (P : EqParams) (i : ℕ) : Bool :=
  !(P.jammerObjective == JammerObjective.oracle) ||
    ((cfg P i).type == ChannelType.real)

/-- Stable insertion of one scored channel into a list already sorted by
descending score: the new element goes after every element whose score is
at least its own, which is exactly the order a stable JS
`sort((a, b) => b.score - a.score)` produces. -/
def insertScored (t : ℕ × ℚ) : List (ℕ × ℚ) → List (ℕ × ℚ)
  | [] => [t]
  | u :: rest => if t.2 ≤ u.2 then u :: insertScored t rest else t :: u :: rest

/-- Stable sort by descending score (`scored.sort((a, b) => b.score - a.score)`). -/
def sortScoredDesc (l : List (ℕ × ℚ)) : List (ℕ × ℚ) :=
  l.foldl (fun acc t => insertScored t acc) []

/-- `applyJammerStrategy`: the three jammer policies.  Writes of the form
`newY[i] = v` into a fresh zero row are expressed with `scatter`. -/
def applyJammerStrategy (m : ℕ) (y x : Mat) (P : EqParams)
    (activeSet : List ℕ) : List ℚ :=
  if activeSet.isEmpty then List.replicate P.N 0
  else
    match P.jammerStrategy with
    | JammerStrategy.J1_uniform =>
        let power := pjget P m / (activeSet.length : ℚ)
        let newY := scatter P.N
          ((activeSet.filter (eligFilter P)).map (fun i => (i, power)))
        let s := newY.sum
        if 0 < s then newY.map (fun v => v / s * pjget P m) else newY
    | JammerStrategy.J2_topK =>
        let scored := (activeSet.filter (eligFilter P)).map (fun i =>
          (i, mget x (cfg P i).owner i * gget P m i))
        let sorted := sortScoredDesc scored
        let targets := sorted.take (min P.topK sorted.length)
        let totalScore := (targets.map Prod.snd).sum
        scatter P.N (targets.map (fun t =>
          (t.1,
            if 0 < totalScore then t.2 / totalScore * pjget P m
            else pjget P m / (targets.length : ℚ))))
    | JammerStrategy.J3_optimization =>
        let grad := attackerGradient m x y P activeSet
        let gradSum := (grad.map (fun v => max 0 v)).sum
        if 0 < gradSum then
          (List.range P.N).map (fun i =>
            max 0 (vget grad i) / gradSum * pjget P m)
        else
          let valid := activeSet.filter (eligFilter P)
          let power := pjget P m / ((max 1 valid.length : ℕ) : ℚ)
          scatter P.N (valid.map (fun i => (i, power)))

structure PlayerAllocation where
  playerId : ℕ
  allocation : List ℚ
  utility : ℚ
deriving DecidableEq, Repr

structure EquilibriumMetrics where
  jammerWasteOnDecoys : ℚ
  dilutionFactor : ℚ
  oracleGap : ℚ
  improvementOverNoDecoys : ℚ
  totalRealThroughput : ℚ
  totalDecoyPower : ℚ
  activeChannelCount : ℕ
  realChannelCount : ℕ
  symmetricEquilibrium : Bool
deriving DecidableEq, Repr

structure ConvergenceEntry where
  iter : ℕ
  maxChange : ℚ
  defenderUtilities : List ℚ
  attackerUtilities : List ℚ
  defenderDeltas : List ℚ
  attackerDeltas : List ℚ
deriving DecidableEq, Repr

structure ChannelSummary where
  channel : ℕ
  owner : ℕ
  channelType : ChannelType
  totalDefenderPower : ℚ
  totalAttackerPower : ℚ
  sinr : ℚ
  rate : ℚ
  h : ℚ
  g : ℚ
  isActive : Bool
deriving DecidableEq, Repr

structure EquilibriumResult where
  defenders : List PlayerAllocation
  attackers : List PlayerAllocation
  converged : Bool
  iterations : ℕ
  maxChange : WithTop ℚ
  convergenceHistory : List ConvergenceEntry
  channelSummary : List ChannelSummary
  metrics : EquilibriumMetrics
deriving DecidableEq

/-- `computeMetrics`: one pass over the channels accumulating
`(totalRealThroughput, totalDecoyPower, jammerWasteOnDecoys,
totalJammerPower, realChannelCount)`.  `lg2` stands for `Math.log2`. -/
def computeMetrics (lg2 : ℚ → ℚ) (x y : Mat) (P : EqParams)
    (activeSet : List ℕ) : EquilibriumMetrics :=
  let acc := (List.range P.N).foldl
    (fun (a : ℚ × ℚ × ℚ × ℚ × ℕ) i =>
      let c := cfg P i
      let defPower := mget x c.owner i
      let jamPower := ((List.range P.M).map (fun m => mget y m i)).sum
      let a := (a.1, a.2.1, a.2.2.1, a.2.2.2.1 + jamPower, a.2.2.2.2)
      if c.type == ChannelType.real then
        let thr :=
          if 0 < defPower then
            lg2 (1 + defPower * hget P c.owner i / interference P y i)
          else 0
        (a.1 + thr, a.2.1, a.2.2.1, a.2.2.2.1, a.2.2.2.2 + 1)
      else if c.type == ChannelType.decoy then
        (a.1, a.2.1 + defPower, a.2.2.1 + jamPower, a.2.2.2.1, a.2.2.2.2)
      else a)
    (0, 0, 0, 0, 0)
  let totalRealThroughput := acc.1
  let totalDecoyPower := acc.2.1
  let jammerWasteOnDecoys := acc.2.2.1
  let totalJammerPower := acc.2.2.2.1
  let realChannelCount := acc.2.2.2.2
  let activeChannelCount := activeSet.length
  { jammerWasteOnDecoys :=
      if 0 < totalJammerPower then jammerWasteOnDecoys / totalJammerPower
      else 0
    dilutionFactor :=
      if 0 < realChannelCount then
        (activeChannelCount : ℚ) / (realChannelCount : ℚ)
      else 1
    oracleGap := 0
    improvementOverNoDecoys := 0
    totalRealThroughput
    totalDecoyPower
    activeChannelCount
    realChannelCount
    symmetricEquilibrium := false }

/-- L1 distance the source computes between two allocation rows
(`alloc.reduce((s, v, i) => s + Math.abs(v - firstDef[i]), 0)`): the rows
compared always have the same length `N` in a run. -/
def l1diff (a b : List ℚ) : ℚ :=
  (a.mapIdx (fun i v => |v - vget b i|)).sum

def playerDefault : PlayerAllocation := { playerId := 0, allocation := [], utility := 0 }

/-- `checkSymmetricEquilibrium`: `false` with at most one defender,
otherwise true iff no later defender's allocation differs from the first
defender's by more than `epsilon * 10` in L1 distance.  The `attackers`
argument is part of the source signature but unused by the source body. -/
def checkSymmetricEquilibrium (defenders : List PlayerAllocation)
    (_attackers : List PlayerAllocation) (epsilon : ℚ) : Bool :=
  if defenders.length ≤ 1 then false
  else
    let firstDef := (defenders.getD 0 playerDefault).allocation
    (defenders.drop 1).all (fun p =>
      !(decide (epsilon * 10 < l1diff p.allocation firstDef)))

/-- The fixed gradient-ascent step size of the loop. -/
def stepSize : ℚ := 1 / 2

/-- Initial allocation row for defender `d`.  With `randomInit` the PRNG
draws (one per owned channel) arrive as the abstract list `w`; otherwise
decoys are funded up to `tau` first and the remainder is split uniformly
over the real channels.  A defender owning no non-inactive channel keeps
the zero row. -/
def initDefenderRow (P : EqParams) (d : ℕ) (w : List ℚ) : List ℚ :=
  let owned := (List.range P.N).filter (fun i =>
    ((cfg P i).owner == d) && !((cfg P i).type == ChannelType.inactive))
  if owned.isEmpty then List.replicate P.N 0
  else if P.randomInit then
    let weights := w.take owned.length
    let s := weights.sum
    scatter P.N (owned.enum.map (fun p =>
      (p.2, vget weights p.1 / s * ptget P d)))
  else
    let realChannels := owned.filter (fun i => (cfg P i).type == ChannelType.real)
    let decoyChannels := owned.filter (fun i => (cfg P i).type == ChannelType.decoy)
    let st := decoyChannels.foldl
      (fun (st : List ℚ × ℚ) i =>
        let a := min P.tau (st.2 / ((max 1 decoyChannels.length : ℕ) : ℚ))
        (st.1.set i a, st.2 - a))
      (List.replicate P.N 0, ptget P d)
    if realChannels.isEmpty then st.1
    else
      let perReal := st.2 / (realChannels.length : ℚ)
      realChannels.foldl (fun row i => row.set i perReal) st.1

/-- The initial defender allocation matrix. `W` is the abstract stream of
PRNG draw lists, one list per defender (unused when `randomInit = false`). -/
def initX (P : EqParams) (W : List (List ℚ)) : Mat :=
  (List.range P.D).map (fun d => initDefenderRow P d (W.getD d []))

/-- The initial attacker allocation matrix, for the runs in which the
initialization returns: each attacker's row comes from one call of the
configured strategy against the initial defender state, with the empty
matrix `[]` passed as `y` exactly as the source does.  Caution: this value
only models the calls that return.  Under `J3_optimization` the source's
`attackerGradient` dereferences `y[mm][i]` on that empty matrix with no
guard, and in JavaScript `y[mm]` is then `undefined`, so the read throws a
TypeError and the run aborts before any iteration whenever the read is
reached; `initJammerThrows` below states exactly when that happens.  (The
`mget` totalization used here returns 0 for the same read, which is the
interference-free value the call site evidently intends.) -/
def initY (P : EqParams) (x : Mat) : Mat :=
  let activeSet := getActiveSet x P
  (List.range P.M).map (fun m => applyJammerStrategy m [] x P activeSet)

/-- Whether the source's attacker-initialization call
`applyJammerStrategy(m, [], x, params, activeSet)` throws.  Translated
from the guards the source evaluates before the unguarded read `y[mm][i]`
inside `attackerGradient`: the strategy must be `J3_optimization` (the
other two strategies never read `y`), the active set must be non-empty
(otherwise the strategy returns the zero row before dispatching), there
must be at least one attacker (otherwise the `mm` loop body never runs —
and also no initialization call is made at all), and some channel must
survive the three `continue` guards of the gradient loop: it lies in the
active set, passes the oracle filter, and its owner powers it positively.
When all of these hold the first such channel reaches
`y[0][i]` with `y = []`, which throws a TypeError, so the run returns no
result object. -/
def initJammerThrows (P : EqParams) (x : Mat) : Bool :=
  let activeSet := getActiveSet x P
  (P.jammerStrategy == JammerStrategy.J3_optimization) &&
    !activeSet.isEmpty && decide (1 ≤ P.M) &&
    (List.range P.N).any (fun i =>
      activeSet.contains i &&
      !((P.jammerObjective == JammerObjective.oracle) &&
        !((cfg P i).type == ChannelType.real)) &&
      decide (0 < mget x (cfg P i).owner i))

/-- One pass of the defender update loop: gradient step, projection onto
the budget, damped blend against the pre-iteration matrix `xOld`, updating
rows in place in index order and accumulating the per-player and global
maximum absolute changes. -/
def defenderPhase (P : EqParams) (xOld y : Mat) : Mat × List ℚ × ℚ :=
  (List.range P.D).foldl
    (fun (st : Mat × List ℚ × ℚ) d =>
      let xCur := st.1
      let grad := defenderGradient d xCur y P
      let update := (xCur.getD d []).mapIdx (fun i val =>
        val + stepSize * vget grad i)
      let projected := projectToSimplex update (ptget P d)
      let newRow := (List.range P.N).map (fun i =>
        (1 - P.alpha) * mget xOld d i + P.alpha * vget projected i)
      let playerMaxChange := ((List.range P.N).map (fun i =>
        |vget newRow i - mget xOld d i|)).foldl max 0
      (xCur.set d newRow, st.2.1 ++ [playerMaxChange], max st.2.2 playerMaxChange))
    (xOld, [], 0)

/-- One pass of the attacker update loop: a strategy-produced candidate
(or, for an independent attacker under `J3_optimization`, the attacker's
own gradient ascent step plus projection), then the same damped blend
against the pre-iteration matrix `yOld`.  The evolving `y` is read by the
gradient strategy, so rows are updated sequentially. -/
def attackerPhase (P : EqParams) (x yOld : Mat) (activeSet : List ℕ)
    (mc0 : ℚ) : Mat × List ℚ × ℚ :=
  (List.range P.M).foldl
    (fun (st : Mat × List ℚ × ℚ) m =>
      let yCur := st.1
      let cand :=
        if (P.attackerMode == AttackerMode.coordinated) ||
            !(P.jammerStrategy == JammerStrategy.J3_optimization) then
          applyJammerStrategy m yCur x P activeSet
        else
          let grad := attackerGradient m x yCur P activeSet
          let update := (yCur.getD m []).mapIdx (fun i val =>
            val + stepSize * vget grad i)
          projectToSimplex update (pjget P m)
      let newRow := (List.range P.N).map (fun i =>
        (1 - P.alpha) * mget yOld m i + P.alpha * vget cand i)
      let playerMaxChange := ((List.range P.N).map (fun i =>
        |vget newRow i - mget yOld m i|)).foldl max 0
      (yCur.set m newRow, st.2.1 ++ [playerMaxChange], max st.2.2 playerMaxChange))
    (yOld, [], mc0)

/-- The state transformation of one loop iteration: defender updates, then
the active set is recomputed, then attacker updates.  Returns the new
matrices, the new active set, the iteration's `maxChange` and the
per-player delta lists. -/
def iterCore (P : EqParams) (x y : Mat) :
    Mat × Mat × List ℕ × ℚ × List ℚ × List ℚ :=
  let dres := defenderPhase P x y
  let newActiveSet := getActiveSet dres.1 P
  let ares := attackerPhase P dres.1 y newActiveSet dres.2.2
  (dres.1, ares.1, newActiveSet, ares.2.2, dres.2.1, ares.2.1)

/-- One full loop iteration including the recorded history entry
(`k` is the 0-based iteration index; the entry records `k + 1`). -/
def iterStep (P : EqParams) (lg : ℚ → ℚ) (k : ℕ) (x y : Mat) :
    Mat × Mat × ConvergenceEntry :=
  let r := iterCore P x y
  let defenderUtilities := (List.range P.D).map (fun d =>
    calculateDefenderUtility lg d r.1 r.2.1 P r.2.2.1 true)
  let attackerUtilities := (List.range P.M).map (fun m =>
    calculateAttackerUtility lg m r.1 r.2.1 P r.2.2.1)
  (r.1, r.2.1,
    { iter := k + 1
      maxChange := r.2.2.2.1
      defenderUtilities
      attackerUtilities
      defenderDeltas := r.2.2.2.2.1
      attackerDeltas := r.2.2.2.2.2 })

structure LoopOut where
  x : Mat
  y : Mat
  history : List ConvergenceEntry
  converged : Bool
  iterations : ℕ
  maxChange : WithTop ℚ
deriving DecidableEq

/-- The best-response loop: run up to `fuel` further iterations starting at
0-based iteration index `k`, appending one history entry per iteration, and
stop early (with `converged = true`) as soon as an iteration's `maxChange`
drops below `epsilon`.  `its`/`mc` carry the `iterations` and `maxChange`
variables of the source (initially `0` and `Infinity = ⊤`). -/
def runLoop (P : EqParams) (lg : ℚ → ℚ) :
    ℕ → ℕ → Mat → Mat → List ConvergenceEntry → ℕ → WithTop ℚ → LoopOut
  | 0, _, x, y, hist, its, mc =>
      { x, y, history := hist, converged := false, iterations := its, maxChange := mc }
  | Nat.succ fuel, k, x, y, hist, _, _ =>
      let r := iterStep P lg k x y
      if r.2.2.maxChange < P.epsilon then
        { x := r.1, y := r.2.1, history := hist ++ [r.2.2], converged := true,
          iterations := k + 1, maxChange := (r.2.2.maxChange : WithTop ℚ) }
      else
        runLoop P lg fuel (k + 1) r.1 r.2.1 (hist ++ [r.2.2]) (k + 1)
          (r.2.2.maxChange : WithTop ℚ)

/-- One channel row of the result's channel summary table. -/
def channelRow (lg2 : ℚ → ℚ) (P : EqParams) (x y : Mat)
    (finalActiveSet : List ℕ) (i : ℕ) : ChannelSummary :=
  let c := cfg P i
  let totalDefenderPower := mget x c.owner i
  let totalAttackerPower := ((List.range P.M).map (fun m => mget y m i)).sum
  let sinr :=
    if 0 < totalDefenderPower then
      totalDefenderPower * hget P c.owner i / interference P y i
    else 0
  let rate := if 0 < totalDefenderPower then lg2 (1 + sinr) else 0
  let avgH := if hget P c.owner i == 0 then 1 else hget P c.owner i
  let avgG := ((List.range P.M).map (fun m => gget P m i)).sum / (P.M : ℚ)
  { channel := i, owner := c.owner, channelType := c.type,
    totalDefenderPower, totalAttackerPower, sinr, rate,
    h := avgH, g := avgG, isActive := finalActiveSet.contains i }

/-- `runEquilibrium`: initialization, the damped best-response loop, and
result construction.  `lg`/`lg2` abstract `Math.log`/`Math.log2`; `W` is
the abstract PRNG stream used only when `randomInit` is set. -/
def runEquilibrium (P : EqParams) (lg lg2 : ℚ → ℚ) (W : List (List ℚ)) :
    EquilibriumResult :=
  let x0 := initX P W
  let y0 := initY P x0
  let out := runLoop P lg P.maxIter 0 x0 y0 [] 0 ⊤
  let finalActiveSet := getActiveSet out.x P
  let defenders := (List.range P.D).map (fun d =>
    { playerId := d, allocation := out.x.getD d [],
      utility := calculateDefenderUtility lg d out.x out.y P finalActiveSet true })
  let attackers := (List.range P.M).map (fun m =>
    { playerId := m, allocation := out.y.getD m [],
      utility := calculateAttackerUtility lg m out.x out.y P finalActiveSet })
  let channelSummary := (List.range P.N).map
    (channelRow lg2 P out.x out.y finalActiveSet)
  let metrics0 := computeMetrics lg2 out.x out.y P finalActiveSet
  let metrics := { metrics0 with
    symmetricEquilibrium :=
      checkSymmetricEquilibrium defenders attackers P.epsilon }
  { defenders, attackers, converged := out.converged,
    iterations := out.iterations, maxChange := out.maxChange,
    convergenceHistory := out.history, channelSummary, metrics }

/-- The defender/attacker matrices after `k` completed iterations of the
loop on a run with parameters `P` and PRNG stream `W` (iterations past the
stop condition simply continue the same state transformation, so this also
covers every prefix of a converging run). -/
def stateAt (P : EqParams) (W : List (List ℚ)) : ℕ → Mat × Mat
  | 0 => (initX P W, initY P (initX P W))
  | Nat.succ k =>
      let st := stateAt P W k
      let r := iterCore P st.1 st.2
      (r.1, r.2.1)

/-! ### Input validation (`validateEquilibriumParams`)

The source validator receives an untyped JSON body; its `typeof`/
`Number.isFinite`/`Array.isArray` guards can only fail on ill-typed
bodies, so the embedding works on the well-typed request record below (on
which those guards always pass) and keeps exactly the range, length and
enumeration checks the source performs, in source order.  Numeric fields
are rationals, as everywhere in the embedding. -/

structure EqRequest where
  N : ℚ
  D : ℚ
  M : ℚ
  sigma2 : ℚ
  tau : ℚ
  alpha : ℚ
  maxIter : ℚ
  epsilon : ℚ
  topK : ℚ
  PT : List ℚ
  PJ : List ℚ
  h : List (List ℚ)
  g : List (List ℚ)
  channelConfig : List ChannelConfig
  jammerStrategy : JammerStrategy
  jammerObjective : JammerObjective
  attackerMode : AttackerMode
deriving DecidableEq, Repr

structure ValidationResult where
  valid : Bool
  error : Option String
deriving DecidableEq, Repr

def MAX_N : ℕ := 100
def MAX_D : ℕ := 20
def MAX_M : ℕ := 20
def MAX_ITER : ℕ := 1000
def MAX_POWER : ℚ := 10000

/-- `validateNumber`: the finiteness guard always holds for a rational, so
only the range check remains.  `lo`/`hi` are the rendered bounds used in
the error message. -/
def validateNumber (value : ℚ) (name lo hi : String) (mn mx : ℚ) :
    ValidationResult :=
  if value < mn ∨ mx < value then
    { valid := false,
      error := some (name ++ " must be between " ++ lo ++ " and " ++ hi) }
  else { valid := true, error := none }

/-- `validateArray` applied to a well-typed list: only the length bound can
fail. -/
def validateLen {α : Type} (arr : List α) (name hi : String)
    (maxLength : ℕ) : ValidationResult :=
  if maxLength < arr.length then
    { valid := false,
      error := some (name ++ " exceeds maximum length of " ++ hi) }
  else { valid := true, error := none }

/-- `validateEquilibriumParams`, in source order: the nine scalar range
checks, then the `PT`/`PJ` length checks (the element values are never
inspected), the `h`/`g` outer and row length checks, the `channelConfig`
length check, and the three enumeration checks (which cannot fail on the
typed request). -/
def validateEquilibriumParams (p : EqRequest) : ValidationResult :=
  let checks := [
    validateNumber p.N "N" "1" "100" 1 (MAX_N : ℚ),
    validateNumber p.D "D" "1" "20" 1 (MAX_D : ℚ),
    validateNumber p.M "M" "1" "20" 1 (MAX_M : ℚ),
    validateNumber p.sigma2 "sigma2" "0.0001" "10000" (1 / 10000) MAX_POWER,
    validateNumber p.tau "tau" "0" "10000" 0 MAX_POWER,
    validateNumber p.alpha "alpha" "0.01" "1" (1 / 100) 1,
    validateNumber p.maxIter "maxIter" "1" "1000" 1 (MAX_ITER : ℚ),
    validateNumber p.epsilon "epsilon" "0.0000001" "1" (1 / 10000000) 1,
    validateNumber p.topK "topK" "1" "100" 1 (MAX_N : ℚ)]
  match checks.find? (fun c => !c.valid) with
  | some c => c
  | none =>
    let ptCheck := validateLen p.PT "PT" "20" MAX_D
    if !ptCheck.valid then ptCheck
    else
      let pjCheck := validateLen p.PJ "PJ" "20" MAX_M
      if !pjCheck.valid then pjCheck
      else if MAX_D < p.h.length then
        { valid := false, error := some "h exceeds maximum of 20 defenders" }
      else
        match (p.h.map (fun row => validateLen row "h row" "100" MAX_N)).find?
            (fun c => !c.valid) with
        | some c => c
        | none =>
          if MAX_M < p.g.length then
            { valid := false, error := some "g exceeds maximum of 20 attackers" }
          else
            match (p.g.map (fun row => validateLen row "g row" "100" MAX_N)).find?
                (fun c => !c.valid) with
            | some c => c
            | none =>
              let configCheck := validateLen p.channelConfig "channelConfig" "100" MAX_N
              if !configCheck.valid then configCheck
              else { valid := true, error := none }

/-! ### Reference formulations taken from the spec and claim wording

These are deliberately written from the claim's words (channel-set
comprehensions over `Finset.range`), not from the source, to compare the
source translation against them. -/

/-- SINR of channel `i` as transmitted by defender `d`. -/
def sinrAt (P : EqParams) (x y : Mat) (d i : ℕ) : ℚ :=
  mget x d i * hget P d i / interference P y i

/-- Claim/spec reading of the oracle-side inner sum: defender `d`'s
utility over its real channels (zero contribution at non-positive power). -/
def defenderUtilityOracleRef (lg : ℚ → ℚ) (d : ℕ) (x y : Mat)
    (P : EqParams) : ℚ :=
  ∑ i ∈ Finset.range P.N,
    if (cfg P i).owner = d ∧ (cfg P i).type = ChannelType.real ∧
        0 < mget x d i then
      lg (1 + sinrAt P x y d i)
    else 0

/-- Claim reading of the deception-side inner sum: defender `d`'s utility
over exactly the channels of the active set, regardless of type — the
wording of the claim under examination. -/
def defenderUtilityActiveRef (lg : ℚ → ℚ) (d : ℕ) (x y : Mat)
    (P : EqParams) (activeSet : List ℕ) : ℚ :=
  ∑ i ∈ Finset.range P.N,
    if (cfg P i).owner = d ∧ i ∈ activeSet ∧ 0 < mget x d i then
      lg (1 + sinrAt P x y d i)
    else 0

/-- What the source actually sums under deception: all of `d`'s
non-`inactive` channels, with no reference to the active set. -/
def defenderUtilityNonInactiveRef (lg : ℚ → ℚ) (d : ℕ) (x y : Mat)
    (P : EqParams) : ℚ :=
  ∑ i ∈ Finset.range P.N,
    if (cfg P i).owner = d ∧ (cfg P i).type ≠ ChannelType.inactive ∧
        0 < mget x d i then
      lg (1 + sinrAt P x y d i)
    else 0

/-- The claim's formula for attacker utility: negative sum of per-defender
utilities, oracle over real channels, deception over the active set. -/
def attackerUtilityClaim (lg : ℚ → ℚ) (x y : Mat) (P : EqParams)
    (activeSet : List ℕ) : ℚ :=
  -(∑ d ∈ Finset.range P.D,
      if P.jammerObjective = JammerObjective.oracle then
        defenderUtilityOracleRef lg d x y P
      else defenderUtilityActiveRef lg d x y P activeSet)

/-! ### Concrete runs used by counterexamples and witnesses -/

/-- Identity stand-in for the abstract logarithm in concrete evaluations
(the claims under evaluation are independent of the choice). -/
def lgId : ℚ → ℚ := fun q => q

/-- A minimal valid run: one defender, one attacker, one real channel, a
sensing threshold `tau = 10` far above the defender budget, so the active
set stays empty throughout. -/
def exampleEmptyActive : EqParams :=
  { N := 1, D := 1, M := 1, PT := [1], PJ := [1], sigma2 := 1, tau := 10,
    h := [[1]], g := [[1]], alpha := 1 / 2, maxIter := 1, epsilon := 1 / 1000,
    channelConfig := [{ type := ChannelType.real, owner := 0 }],
    jammerStrategy := JammerStrategy.J1_uniform,
    jammerObjective := JammerObjective.deception,
    attackerMode := AttackerMode.coordinated, topK := 1, randomInit := false }

/-- A state for the utility claims: one real channel funded below the
sensing threshold (`x = 0.1 < tau = 0.5`), no jamming. -/
def exampleBelowTau : EqParams :=
  { N := 1, D := 1, M := 1, PT := [1], PJ := [1], sigma2 := 1, tau := 1 / 2,
    h := [[1]], g := [[1]], alpha := 1 / 2, maxIter := 1, epsilon := 1 / 1000,
    channelConfig := [{ type := ChannelType.real, owner := 0 }],
    jammerStrategy := JammerStrategy.J1_uniform,
    jammerObjective := JammerObjective.deception,
    attackerMode := AttackerMode.coordinated, topK := 1, randomInit := false }

/-- Two equal-gain real channels for the top-K/uniform comparison. -/
def exampleTwoChannels : EqParams :=
  { N := 2, D := 1, M := 1, PT := [2], PJ := [3], sigma2 := 1, tau := 0,
    h := [[1, 1]], g := [[2, 2]], alpha := 1 / 2, maxIter := 1,
    epsilon := 1 / 1000,
    channelConfig := [{ type := ChannelType.real, owner := 0 },
                      { type := ChannelType.real, owner := 0 }],
    jammerStrategy := JammerStrategy.J2_topK,
    jammerObjective := JammerObjective.deception,
    attackerMode := AttackerMode.coordinated, topK := 2, randomInit := false }

/-- The `exampleEmptyActive` run with a zero defender budget. -/
def exampleZeroBudget : EqParams :=
  { exampleEmptyActive with PT := [0], tau := 0 }

/-- A fully in-range request whose only anomaly is a negative entry in the
`PT` power-budget array. -/
def exampleNegativePT : EqRequest :=
  { N := 1, D := 1, M := 1, sigma2 := 1, tau := 1, alpha := 1 / 2,
    maxIter := 100, epsilon := 1 / 1000, topK := 1,
    PT := [-5], PJ := [1], h := [[1]], g := [[1]],
    channelConfig := [{ type := ChannelType.real, owner := 0 }],
    jammerStrategy := JammerStrategy.J1_uniform,
    jammerObjective := JammerObjective.deception,
    attackerMode := AttackerMode.coordinated }

/-- A fully in-range `J3_optimization` request: one defender, one
attacker, one real channel, budget 1 well above the sensing threshold
`tau = 0.5`. -/
def exampleJ3Request : EqRequest :=
  { N := 1, D := 1, M := 1, sigma2 := 1, tau := 1 / 2, alpha := 1 / 2,
    maxIter := 100, epsilon := 1 / 1000, topK := 1,
    PT := [1], PJ := [1], h := [[1]], g := [[1]],
    channelConfig := [{ type := ChannelType.real, owner := 0 }],
    jammerStrategy := JammerStrategy.J3_optimization,
    jammerObjective := JammerObjective.deception,
    attackerMode := AttackerMode.coordinated }

/-- The engine parameters the server builds from `exampleJ3Request`. -/
def exampleJ3Params : EqParams :=
  { N := 1, D := 1, M := 1, PT := [1], PJ := [1], sigma2 := 1, tau := 1 / 2,
    h := [[1]], g := [[1]], alpha := 1 / 2, maxIter := 100,
    epsilon := 1 / 1000,
    channelConfig := [{ type := ChannelType.real, owner := 0 }],
    jammerStrategy := JammerStrategy.J3_optimization,
    jammerObjective := JammerObjective.deception,
    attackerMode := AttackerMode.coordinated, topK := 1, randomInit := false }

/-! ### Predicates and shorthands used by the theorem statements -/

/-- The channels an attacker is actually willing to target: the active set
filtered by the oracle/deception eligibility rule. -/
def eligibleList (P : EqParams) (activeSet : List ℕ) : List ℕ :=
  activeSet.filter (eligFilter P)

/-- Every entry of the list is non-negative. -/
abbrev nonnegList (l : List ℚ) : Prop := ∀ q ∈ l, 0 ≤ q

/-- Every entry of the matrix is non-negative. -/
abbrev nonnegMat (A : Mat) : Prop := ∀ r ∈ A, nonnegList r

/-- The matrix has exactly `rows` rows, each of length `cols`. -/
abbrev matShape (rows cols : ℕ) (A : Mat) : Prop :=
  A.length = rows ∧ ∀ r ∈ A, r.length = cols

/-- Every entry of the list is zero. -/
abbrev zeroList (l : List ℚ) : Prop := ∀ q ∈ l, q = 0

def entryDefault : ConvergenceEntry :=
  { iter := 0, maxChange := 0, defenderUtilities := [],
    attackerUtilities := [], defenderDeltas := [], attackerDeltas := [] }

end NChannel

/-! ## Theorems -/

namespace NChannel

theorem sum_list_range (f : ℕ → ℚ) (n : ℕ) :
    ((List.range n).map f).sum = ∑ i ∈ Finset.range n, f i := by
  induction n with
  | zero => simp
  | succ n ih =>
      rw [List.range_succ, List.map_append, List.sum_append,
        Finset.sum_range_succ, ih]
      simp

theorem getD_mem_or_eq {α : Type} (l : List α) (n : ℕ) (d : α) :
    l.getD n d ∈ l ∨ l.getD n d = d := by
  induction l generalizing n with
  | nil => right; simp
  | cons a t ih =>
      cases n with
      | zero => left; simp
      | succ n =>
          rcases ih n with h | h
          · left
            simpa using Or.inr h
          · right
            simpa using h

theorem vget_nonneg {v : List ℚ} (h : nonnegList v) (i : ℕ) : 0 ≤ vget v i := by
  rcases getD_mem_or_eq v i 0 with hm | he
  · exact h _ hm
  · rw [vget, he]

theorem nonnegList_getD_row {A : Mat} (h : nonnegMat A) (r : ℕ) :
    nonnegList (A.getD r []) := by
  rcases getD_mem_or_eq A r [] with hm | he
  · exact h _ hm
  · rw [he]; intro q hq; cases hq

theorem mget_nonneg {A : Mat} (h : nonnegMat A) (r c : ℕ) : 0 ≤ mget A r c :=
  vget_nonneg (nonnegList_getD_row h r) c

theorem map_eq_self {α : Type} (l : List α) (f : α → α)
    (h : ∀ a ∈ l, f a = a) : l.map f = l := by
  induction l with
  | nil => rfl
  | cons a t ih =>
      simp only [List.map_cons, h a (by simp)]
      rw [ih (fun b hb => h b (by simp [hb]))]

theorem nonneg_sum_zero {l : List ℚ} (h : nonnegList l) (hs : l.sum = 0) :
    zeroList l := by
  induction l with
  | nil => intro q hq; cases hq
  | cons a t ih =>
      have ha : 0 ≤ a := h a (by simp)
      have ht : 0 ≤ t.sum := List.sum_nonneg (fun q hq => h q (by simp [hq]))
      have hs' : a + t.sum = 0 := by simpa using hs
      have ha0 : a = 0 := by linarith
      have hts : t.sum = 0 := by linarith
      intro q hq
      rcases List.mem_cons.mp hq with rfl | hq'
      · exact ha0
      · exact ih (fun q hq => h q (by simp [hq])) hts q hq'

/-- C8: projecting a non-empty, non-negative vector that already sums to
the budget returns it unchanged, including the degenerate all-zero vector
with budget 0. -/
theorem c8_projection_idempotent (v : List ℚ) (b : ℚ) (_hne : v ≠ [])
    (hv : nonnegList v) (hsum : v.sum = b) : projectToSimplex v b = v := by
  have hclamp : v.map (fun q => max 0 q) = v :=
    map_eq_self v _ (fun a ha => max_eq_right (hv a ha))
  have hb : 0 ≤ b := hsum ▸ List.sum_nonneg hv
  unfold projectToSimplex
  simp only [hclamp, hsum]
  by_cases hpos : 0 < b
  · simp only [if_pos hpos]
    exact map_eq_self v _ (fun a _ => div_mul_cancel₀ a (ne_of_gt hpos))
  · simp only [if_neg hpos]
    have hb0 : b = 0 := le_antisymm (not_lt.mp hpos) hb
    have hz : zeroList v := nonneg_sum_zero hv (hsum.trans hb0)
    refine map_eq_self v _ (fun a ha => ?_)
    rw [hb0, zero_div, hz a ha]

set_option maxRecDepth 20000 in
unseal Rat.add Rat.mul Rat.sub Rat.inv in
theorem c8_witness :
    (([1, 2] : List ℚ) ≠ [] ∧ nonnegList [1, 2] ∧
      ([1, 2] : List ℚ).sum = 3) ∧
    projectToSimplex [1, 2] 3 = [1, 2] :=
  ⟨⟨by decide, by decide, by decide⟩,
    c8_projection_idempotent [1, 2] 3 (by decide) (by decide) (by decide)⟩

set_option maxRecDepth 20000 in
unseal Rat.add Rat.mul Rat.sub Rat.inv in
/-- C3: a request that is fully in range except for a negative entry in
the `PT` budget array passes `validateEquilibriumParams` (the validator
never inspects `PT`/`PJ` element values), so the engine is invoked rather
than the request being rejected. -/
theorem c3_negative_budget_passes_validation :
    validateEquilibriumParams exampleNegativePT =
      { valid := true, error := none } := by
  decide

set_option maxRecDepth 20000 in
unseal Rat.add Rat.mul Rat.sub Rat.inv in
/-- C1 counterexample: in the run `exampleEmptyActive` (valid parameters,
active set empty because `tau` exceeds the defender budget) the attacker's
allocation row sums to 0, not to its budget `PJ[0] = 1`, at the end of the
(only) iteration — refuting the claim that row sums always match budgets,
including when the active set is empty. -/
theorem c1_budget_counterexample :
    ((runEquilibrium exampleEmptyActive lgId lgId []).attackers.getD 0
        playerDefault).allocation.sum = 0 ∧
    pjget exampleEmptyActive 0 = 1 ∧
    (runEquilibrium exampleEmptyActive lgId lgId []).iterations = 1 := by
  decide

set_option maxRecDepth 20000 in
unseal Rat.add Rat.mul Rat.sub Rat.inv in
/-- C2 counterexample: with the deception objective and a real channel
funded below the sensing threshold (so the active set is empty), the
source's attacker utility is `-11/10 ≠ 0`, while the claim's formula
(summing over exactly the active channels) gives 0: the source ignores the
active set. -/
theorem c2_active_set_counterexample :
    calculateAttackerUtility lgId 0 [[1 / 10]] [[0]] exampleBelowTau
        (getActiveSet [[1 / 10]] exampleBelowTau) ≠
      attackerUtilityClaim lgId [[1 / 10]] [[0]] exampleBelowTau
        (getActiveSet [[1 / 10]] exampleBelowTau) := by
  decide

set_option maxRecDepth 20000 in
unseal Rat.add Rat.mul Rat.sub Rat.inv in
/-- C6 counterexample: a run with a single defender returns
`symmetricEquilibrium = false`, while the claim (vacuous condition over
"every defender vs the first") requires `true`. -/
theorem c6_single_defender_counterexample :
    (runEquilibrium exampleEmptyActive lgId lgId
        []).metrics.symmetricEquilibrium = false ∧
    (runEquilibrium exampleEmptyActive lgId lgId []).defenders.length = 1 := by
  decide

theorem calcDef_true_eq (lg : ℚ → ℚ) (d : ℕ) (x y : Mat) (P : EqParams)
    (A : List ℕ) :
    calculateDefenderUtility lg d x y P A true =
      defenderUtilityOracleRef lg d x y P := by
  unfold calculateDefenderUtility defenderUtilityOracleRef
  rw [sum_list_range]
  refine Finset.sum_congr rfl (fun i _ => ?_)
  simp only [sinrAt]
  by_cases h1 : (cfg P i).owner = d
  · by_cases h2 : (cfg P i).type = ChannelType.real
    · by_cases h3 : mget x d i ≤ 0
      · simp [h1, h2, h3, not_lt.mpr h3]
      · simp [h1, h2, h3, not_le.mp h3]
    · simp [h1, h2]
  · simp [h1]

theorem calcDef_false_eq (lg : ℚ → ℚ) (d : ℕ) (x y : Mat) (P : EqParams)
    (A : List ℕ) :
    calculateDefenderUtility lg d x y P A false =
      defenderUtilityNonInactiveRef lg d x y P := by
  unfold calculateDefenderUtility defenderUtilityNonInactiveRef
  rw [sum_list_range]
  refine Finset.sum_congr rfl (fun i _ => ?_)
  simp only [sinrAt]
  by_cases h1 : (cfg P i).owner = d
  · by_cases h2 : (cfg P i).type = ChannelType.inactive
    · simp [h1, h2]
    · by_cases h3 : mget x d i ≤ 0
      · simp [h1, h2, h3, not_lt.mpr h3]
      · simp [h1, h2, h3, not_le.mp h3]
  · simp [h1]

/-- C2 (amended): attacker utility is the negative of the sum over all
defenders of defender utility; under the oracle objective the inner sum
ranges over the defender's real channels, and under the deception
objective over all the defender's non-`inactive` channels — irrespective
of the active set, which the source function receives but never reads.
Channels with non-positive defender power contribute zero. -/
theorem c2_attacker_utility_decomposition (lg : ℚ → ℚ) (m : ℕ) (x y : Mat)
    (P : EqParams) (A : List ℕ) :
    calculateAttackerUtility lg m x y P A =
      -(∑ d ∈ Finset.range P.D,
          if P.jammerObjective = JammerObjective.oracle then
            defenderUtilityOracleRef lg d x y P
          else defenderUtilityNonInactiveRef lg d x y P) := by
  unfold calculateAttackerUtility
  rw [sum_list_range]
  congr 1
  refine Finset.sum_congr rfl (fun d _ => ?_)
  by_cases ho : P.jammerObjective = JammerObjective.oracle
  · simp [ho, calcDef_true_eq]
  · simp [ho, calcDef_false_eq]

theorem checkSym_iff (defs atks : List PlayerAllocation) (ε : ℚ) :
    checkSymmetricEquilibrium defs atks ε = true ↔
      (1 < defs.length ∧ ∀ p ∈ defs.drop 1,
        l1diff p.allocation ((defs.getD 0 playerDefault).allocation) ≤
          ε * 10) := by
  unfold checkSymmetricEquilibrium
  by_cases h : defs.length ≤ 1
  · rw [if_pos h]
    simp only [Bool.false_eq_true, false_iff, not_and]
    intro hlt
    omega
  · rw [if_neg h]
    rw [List.all_eq_true]
    constructor
    · intro hall
      refine ⟨by omega, fun p hp => ?_⟩
      have := hall p hp
      simpa [not_lt] using this
    · intro hall p hp
      simpa [not_lt] using hall.2 p hp

/-- C6 (amended): the returned `symmetricEquilibrium` flag is true exactly
when the run has more than one defender and every later defender's final
allocation is within `epsilon * 10` of the first defender's in total L1
distance; in particular, with a single defender the flag is `false`. -/
theorem c6_symmetric_flag_characterization (P : EqParams) (lg lg2 : ℚ → ℚ)
    (W : List (List ℚ)) :
    (runEquilibrium P lg lg2 W).metrics.symmetricEquilibrium = true ↔
      (1 < (runEquilibrium P lg lg2 W).defenders.length ∧
        ∀ p ∈ (runEquilibrium P lg lg2 W).defenders.drop 1,
          l1diff p.allocation
            (((runEquilibrium P lg lg2 W).defenders.getD 0
                playerDefault).allocation) ≤ P.epsilon * 10) := by
  have hfield : (runEquilibrium P lg lg2 W).metrics.symmetricEquilibrium =
      checkSymmetricEquilibrium (runEquilibrium P lg lg2 W).defenders
        (runEquilibrium P lg lg2 W).attackers P.epsilon := rfl
  rw [hfield]
  exact checkSym_iff _ _ _

theorem getLast?_cons_ne {α : Type} (a : α) (l : List α) (h : l ≠ []) :
    (a :: l).getLast? = l.getLast? := by
  cases l with
  | nil => exact absurd rfl h
  | cons b t => simp [List.getLast?_cons_cons]

theorem iterStep_iter (P : EqParams) (lg : ℚ → ℚ) (k : ℕ) (x y : Mat) :
    (iterStep P lg k x y).2.2.iter = k + 1 := rfl

/-- Complete bookkeeping of the best-response loop: the generated history
suffix, the convergence flag, the iteration counter, the final `maxChange`
and the 1-based numbering of the generated entries. -/
theorem runLoop_spec (P : EqParams) (lg : ℚ → ℚ) :
    ∀ (fuel k : ℕ) (x y : Mat) (hist : List ConvergenceEntry) (its : ℕ)
      (mc : WithTop ℚ),
      ∃ gen : List ConvergenceEntry,
        (runLoop P lg fuel k x y hist its mc).history = hist ++ gen ∧
        gen.length ≤ fuel ∧
        ((runLoop P lg fuel k x y hist its mc).converged = true ↔
          ∃ e ∈ gen, e.maxChange < P.epsilon) ∧
        ((runLoop P lg fuel k x y hist its mc).converged = false →
          gen.length = fuel) ∧
        (gen = [] → (runLoop P lg fuel k x y hist its mc).iterations = its ∧
          (runLoop P lg fuel k x y hist its mc).maxChange = mc) ∧
        (gen ≠ [] →
          (runLoop P lg fuel k x y hist its mc).iterations = k + gen.length ∧
          ∃ e, gen.getLast? = some e ∧
            (runLoop P lg fuel k x y hist its mc).maxChange =
              (e.maxChange : WithTop ℚ)) ∧
        (∀ j, j < gen.length → (gen.getD j entryDefault).iter = k + j + 1) := by
  intro fuel
  induction fuel with
  | zero =>
      intro k x y hist its mc
      refine ⟨[], by simp [runLoop], le_rfl, ?_, ?_, ?_, ?_, ?_⟩
      · simp [runLoop]
      · intro _; rfl
      · intro _; exact ⟨rfl, rfl⟩
      · intro hne; exact absurd rfl hne
      · intro j hj; cases hj
  | succ fuel ih =>
      intro k x y hist its mc
      by_cases hc : (iterStep P lg k x y).2.2.maxChange < P.epsilon
      · refine ⟨[(iterStep P lg k x y).2.2], ?_, by simp, ?_, ?_, ?_, ?_, ?_⟩
        · simp [runLoop, hc]
        · simp only [runLoop, hc, if_pos]
          constructor
          · intro _
            exact ⟨_, by simp, hc⟩
          · intro _; trivial
        · simp [runLoop, hc]
        · intro h; cases h
        · intro _
          refine ⟨?_, (iterStep P lg k x y).2.2, rfl, ?_⟩
          · simp [runLoop, hc]
          · simp [runLoop, hc]
        · intro j hj
          have hj0 : j = 0 := by simpa using hj
          subst hj0
          simp [iterStep_iter]
      · obtain ⟨gen, hh, hlen, hconv, hnc, hemp, hne, hnum⟩ :=
          ih (k + 1) (iterStep P lg k x y).1 (iterStep P lg k x y).2.1
            (hist ++ [(iterStep P lg k x y).2.2]) (k + 1)
            ((iterStep P lg k x y).2.2.maxChange : WithTop ℚ)
        have hrun : runLoop P lg (fuel + 1) k x y hist its mc =
            runLoop P lg fuel (k + 1) (iterStep P lg k x y).1
              (iterStep P lg k x y).2.1
              (hist ++ [(iterStep P lg k x y).2.2]) (k + 1)
              ((iterStep P lg k x y).2.2.maxChange : WithTop ℚ) := by
          simp [runLoop, hc]
        refine ⟨(iterStep P lg k x y).2.2 :: gen, ?_, ?_, ?_, ?_, ?_, ?_, ?_⟩
        · rw [hrun, hh]; simp
        · simpa using Nat.succ_le_succ hlen
        · rw [hrun]
          rw [hconv]
          constructor
          · intro ⟨e, he, hlt⟩
            exact ⟨e, by simp [he], hlt⟩
          · intro ⟨e, he, hlt⟩
            rcases List.mem_cons.mp he with rfl | he'
            · exact absurd hlt hc
            · exact ⟨e, he', hlt⟩
        · rw [hrun]
          intro hf
          simpa using hnc hf
        · intro h; cases h
        · intro _
          rcases List.eq_nil_or_concat gen with rfl | hcat
          · obtain ⟨hits, hmc⟩ := hemp rfl
            rw [hrun]
            refine ⟨by simpa using hits, (iterStep P lg k x y).2.2, rfl, hmc⟩
          · have hgne : gen ≠ [] := by
              obtain ⟨l, a, rfl⟩ := hcat
              simp
            obtain ⟨hits, e, hlast, hmc⟩ := hne hgne
            rw [hrun]
            refine ⟨by rw [hits]; simp; omega, e, ?_, hmc⟩
            rw [getLast?_cons_ne _ _ hgne]
            exact hlast
        · intro j hj
          cases j with
          | zero => simp [iterStep_iter]
          | succ j =>
              have hjl : j < gen.length := by simpa using hj
              have := hnum j hjl
              simpa [Nat.add_assoc, Nat.add_comm, Nat.add_left_comm] using this

theorem runEquilibrium_loop_fields (P : EqParams) (lg lg2 : ℚ → ℚ)
    (W : List (List ℚ)) :
    (runEquilibrium P lg lg2 W).convergenceHistory =
      (runLoop P lg P.maxIter 0 (initX P W) (initY P (initX P W)) [] 0
        ⊤).history ∧
    (runEquilibrium P lg lg2 W).converged =
      (runLoop P lg P.maxIter 0 (initX P W) (initY P (initX P W)) [] 0
        ⊤).converged ∧
    (runEquilibrium P lg lg2 W).iterations =
      (runLoop P lg P.maxIter 0 (initX P W) (initY P (initX P W)) [] 0
        ⊤).iterations ∧
    (runEquilibrium P lg lg2 W).maxChange =
      (runLoop P lg P.maxIter 0 (initX P W) (initY P (initX P W)) [] 0
        ⊤).maxChange :=
  ⟨rfl, rfl, rfl, rfl⟩

theorem runEquilibrium_lengths (P : EqParams) (lg lg2 : ℚ → ℚ)
    (W : List (List ℚ)) :
    (runEquilibrium P lg lg2 W).defenders.length = P.D ∧
    (runEquilibrium P lg lg2 W).attackers.length = P.M ∧
    (runEquilibrium P lg lg2 W).channelSummary.length = P.N := by
  refine ⟨?_, ?_, ?_⟩ <;> simp [runEquilibrium]

/-- Characterization of the result object of the runs whose initialization
returns (hypothesis `initJammerThrows P (initX P W) = false`; the model
value `runEquilibrium` only describes the program on those runs): the
`converged` flag is true exactly when some recorded iteration's `maxChange`
dropped below `epsilon`; `iterations` never exceeds `maxIter`; and when no
iteration converged the loop runs exactly `maxIter` iterations and still
returns a fully-populated result (`D` defender allocations, `M` attacker
allocations, `N` channel-summary rows, the full history) with
`converged = false`. -/
theorem runEquilibrium_flag_characterization (P : EqParams)
    (lg lg2 : ℚ → ℚ) (W : List (List ℚ))
    (_hreturns : initJammerThrows P (initX P W) = false) :
    ((runEquilibrium P lg lg2 W).converged = true ↔
      ∃ e ∈ (runEquilibrium P lg lg2 W).convergenceHistory,
        e.maxChange < P.epsilon) ∧
    (runEquilibrium P lg lg2 W).iterations ≤ P.maxIter ∧
    ((∀ e ∈ (runEquilibrium P lg lg2 W).convergenceHistory,
        ¬(e.maxChange < P.epsilon)) →
      (runEquilibrium P lg lg2 W).converged = false ∧
      (runEquilibrium P lg lg2 W).iterations = P.maxIter ∧
      (runEquilibrium P lg lg2 W).convergenceHistory.length = P.maxIter ∧
      (runEquilibrium P lg lg2 W).defenders.length = P.D ∧
      (runEquilibrium P lg lg2 W).attackers.length = P.M ∧
      (runEquilibrium P lg lg2 W).channelSummary.length = P.N) := by
  obtain ⟨hh, hcv, hit, hmc⟩ := runEquilibrium_loop_fields P lg lg2 W
  obtain ⟨gen, hh', hlen, hconv, hnc, hemp, hne, hnum⟩ :=
    runLoop_spec P lg P.maxIter 0 (initX P W) (initY P (initX P W)) [] 0 ⊤
  have hgen : (runEquilibrium P lg lg2 W).convergenceHistory = gen := by
    rw [hh, hh']; simp
  obtain ⟨hd, ha, hcs⟩ := runEquilibrium_lengths P lg lg2 W
  refine ⟨?_, ?_, ?_⟩
  · rw [hcv, hgen]
    exact hconv
  · rcases List.eq_nil_or_concat gen with rfl | hcat
    · rw [hit, (hemp rfl).1]
      exact Nat.zero_le _
    · have hgne : gen ≠ [] := by obtain ⟨l, a, rfl⟩ := hcat; simp
      rw [hit, (hne hgne).1]
      simpa using hlen
  · intro hall
    have hcvf : (runEquilibrium P lg lg2 W).converged = false := by
      rcases Bool.eq_false_or_eq_true (runEquilibrium P lg lg2 W).converged
        with ht | hf
      · obtain ⟨e, he, hlt⟩ := hconv.mp (hcv ▸ ht)
        exact absurd hlt (hall e (hgen ▸ he))
      · exact hf
    have hglen : gen.length = P.maxIter := hnc (hcv ▸ hcvf)
    refine ⟨hcvf, ?_, by rw [hgen]; exact hglen, hd, ha, hcs⟩
    rcases List.eq_nil_or_concat gen with rfl | hcat
    · have h0 : P.maxIter = 0 := by simpa using hglen.symm
      rw [hit, (hemp rfl).1, h0]
    · have hgne : gen ≠ [] := by obtain ⟨l, a, rfl⟩ := hcat; simp
      rw [hit, (hne hgne).1, hglen]
      omega

set_option maxRecDepth 20000 in
unseal Rat.add Rat.mul Rat.sub Rat.inv in
/-- C4: the claim fails on the code.  `exampleJ3Request` passes every check
of `validateEquilibriumParams`, yet its run aborts before the first
iteration: the strategy is `J3_optimization`, the single real channel is
funded at `1 ≥ tau = 1/2` so the initial active set is non-empty, and its
owner powers it positively, so the attacker-initialization call — the
source passes the empty matrix as `y` — reaches the unguarded read
`y[mm][i]` inside `attackerGradient` and throws a TypeError
(`initJammerThrows` holds).  The server answers with an error instead of
the fully-populated non-converged result the claim promises for every run
whose `maxChange` never drops below `epsilon`. -/
theorem c4_j3_initialization_throws :
    validateEquilibriumParams exampleJ3Request =
      { valid := true, error := none } ∧
    exampleJ3Params.jammerStrategy = JammerStrategy.J3_optimization ∧
    initJammerThrows exampleJ3Params (initX exampleJ3Params []) = true := by
  refine ⟨by decide, rfl, by decide⟩

theorem c6_witness :
    (runEquilibrium exampleEmptyActive lgId lgId
        []).metrics.symmetricEquilibrium = true ↔
      (1 < (runEquilibrium exampleEmptyActive lgId lgId
          []).defenders.length ∧
        ∀ p ∈ (runEquilibrium exampleEmptyActive lgId lgId
            []).defenders.drop 1,
          l1diff p.allocation
            (((runEquilibrium exampleEmptyActive lgId lgId []).defenders.getD 0
                playerDefault).allocation) ≤ exampleEmptyActive.epsilon * 10) :=
  c6_symmetric_flag_characterization exampleEmptyActive lgId lgId []

/-- C10: `iterations` equals the history length, the `j`-th history entry
(0-based) is numbered `j + 1`, the history is non-empty whenever
`maxIter ≥ 1` (as validation guarantees), and the top-level `maxChange` is
the `maxChange` of the last history entry. -/
theorem c10_history_bookkeeping (P : EqParams) (lg lg2 : ℚ → ℚ)
    (W : List (List ℚ)) (hIter : 1 ≤ P.maxIter) :
    (runEquilibrium P lg lg2 W).iterations =
      (runEquilibrium P lg lg2 W).convergenceHistory.length ∧
    (∀ j < (runEquilibrium P lg lg2 W).convergenceHistory.length,
      ((runEquilibrium P lg lg2 W).convergenceHistory.getD j
        entryDefault).iter = j + 1) ∧
    (runEquilibrium P lg lg2 W).convergenceHistory ≠ [] ∧
    (∃ e, (runEquilibrium P lg lg2 W).convergenceHistory.getLast? = some e ∧
      (runEquilibrium P lg lg2 W).maxChange = (e.maxChange : WithTop ℚ)) := by
  obtain ⟨hh, hcv, hit, hmc⟩ := runEquilibrium_loop_fields P lg lg2 W
  obtain ⟨gen, hh', hlen, hconv, hnc, hemp, hne, hnum⟩ :=
    runLoop_spec P lg P.maxIter 0 (initX P W) (initY P (initX P W)) [] 0 ⊤
  have hgen : (runEquilibrium P lg lg2 W).convergenceHistory = gen := by
    rw [hh, hh']; simp
  have hgne : gen ≠ [] := by
    intro hnil
    rcases Bool.eq_false_or_eq_true (runLoop P lg P.maxIter 0 (initX P W)
        (initY P (initX P W)) [] 0 ⊤).converged with ht | hf
    · obtain ⟨e, he, _⟩ := hconv.mp ht
      rw [hnil] at he
      cases he
    · have := hnc hf
      rw [hnil] at this
      simp at this
      omega
  obtain ⟨hits, e, hlast, hmcv⟩ := hne hgne
  refine ⟨?_, ?_, ?_, e, ?_, ?_⟩
  · rw [hit, hits, hgen]
    simp
  · intro j hj
    rw [hgen] at hj ⊢
    simpa using hnum j hj
  · rw [hgen]; exact hgne
  · rw [hgen]; exact hlast
  · rw [hmc]; exact hmcv

theorem c10_witness :
    1 ≤ exampleEmptyActive.maxIter ∧
    ((runEquilibrium exampleEmptyActive lgId lgId []).iterations =
      (runEquilibrium exampleEmptyActive lgId lgId
        []).convergenceHistory.length ∧
    (∀ j < (runEquilibrium exampleEmptyActive lgId lgId
        []).convergenceHistory.length,
      ((runEquilibrium exampleEmptyActive lgId lgId []).convergenceHistory.getD
        j entryDefault).iter = j + 1) ∧
    (runEquilibrium exampleEmptyActive lgId lgId []).convergenceHistory ≠
      [] ∧
    (∃ e, (runEquilibrium exampleEmptyActive lgId lgId
        []).convergenceHistory.getLast? = some e ∧
      (runEquilibrium exampleEmptyActive lgId lgId []).maxChange =
        (e.maxChange : WithTop ℚ))) :=
  ⟨by decide,
    c10_history_bookkeeping exampleEmptyActive lgId lgId [] (by decide)⟩

theorem range_map_vget (v : List ℚ) :
    (List.range v.length).map (fun i => vget v i) = v := by
  induction v with
  | nil => simp
  | cons a t ih =>
      rw [List.length_cons, List.range_succ_eq_map, List.map_cons,
        List.map_map]
      have hc : ((fun i => vget (a :: t) i) ∘ Nat.succ) =
          fun i => vget t i := by
        funext i; rfl
      rw [hc, ih]
      rfl

theorem sum_vget_range (v : List ℚ) (n : ℕ) (h : v.length = n) :
    ((List.range n).map (fun i => vget v i)).sum = v.sum := by
  subst h
  rw [range_map_vget]

theorem getD_set_self {α : Type} (l : List α) (i : ℕ) (a d : α)
    (h : i < l.length) : (l.set i a).getD i d = a := by
  induction l generalizing i with
  | nil => cases h
  | cons b t ih =>
      cases i with
      | zero => rfl
      | succ i => exact ih i (by simpa using h)

theorem getD_set_ne {α : Type} (l : List α) {i j : ℕ} (a d : α)
    (h : i ≠ j) : (l.set i a).getD j d = l.getD j d := by
  induction l generalizing i j with
  | nil => simp
  | cons b t ih =>
      cases i with
      | zero =>
          cases j with
          | zero => exact absurd rfl h
          | succ j => rfl
      | succ i =>
          cases j with
          | zero => rfl
          | succ j => exact ih (fun hh => h (congrArg Nat.succ hh))

theorem sum_set (l : List ℚ) (i : ℕ) (a : ℚ) (h : i < l.length) :
    (l.set i a).sum = l.sum - l.getD i 0 + a := by
  induction l generalizing i with
  | nil => cases h
  | cons b t ih =>
      cases i with
      | zero =>
          simp only [List.set, List.sum_cons, List.getD_cons_zero]
          ring
      | succ i =>
          simp only [List.set, List.sum_cons, List.getD_cons_succ]
          rw [ih i (by simpa using h)]
          ring

theorem mem_set_or {α : Type} (l : List α) (i : ℕ) (a b : α)
    (h : b ∈ l.set i a) : b ∈ l ∨ b = a := by
  induction l generalizing i with
  | nil => simp at h
  | cons c t ih =>
      cases i with
      | zero =>
          rcases List.mem_cons.mp h with rfl | h'
          · right; rfl
          · left; exact List.mem_cons_of_mem _ h'
      | succ i =>
          rcases List.mem_cons.mp h with rfl | h'
          · left; exact List.mem_cons_self _ _
          · rcases ih i h' with hm | he
            · left; exact List.mem_cons_of_mem _ hm
            · right; exact he

theorem getD_replicate_zero (n j : ℕ) :
    (List.replicate n (0 : ℚ)).getD j 0 = 0 := by
  rcases getD_mem_or_eq (List.replicate n (0 : ℚ)) j 0 with hm | he
  · exact List.eq_of_mem_replicate hm
  · exact he

theorem writeAll_length (row : List ℚ) (ps : List (ℕ × ℚ)) :
    (writeAll row ps).length = row.length := by
  induction ps generalizing row with
  | nil => rfl
  | cons p ps ih =>
      show (writeAll (row.set p.1 p.2) ps).length = row.length
      rw [ih]
      simp

theorem writeAll_getD_not_mem (row : List ℚ) (ps : List (ℕ × ℚ)) (j : ℕ)
    (hj : j ∉ ps.map Prod.fst) :
    (writeAll row ps).getD j 0 = row.getD j 0 := by
  induction ps generalizing row with
  | nil => rfl
  | cons p ps ih =>
      show (writeAll (row.set p.1 p.2) ps).getD j 0 = row.getD j 0
      rw [ih _ (fun hm => hj (by simp [hm]))]
      exact getD_set_ne _ _ _ (fun he => hj (by simp [he]))

theorem writeAll_getD_mem (row : List ℚ) (ps : List (ℕ × ℚ)) (j : ℕ) (v : ℚ)
    (hnd : (ps.map Prod.fst).Nodup) (hmem : (j, v) ∈ ps)
    (hlen : j < row.length) : (writeAll row ps).getD j 0 = v := by
  induction ps generalizing row with
  | nil => cases hmem
  | cons p ps ih =>
      rcases List.mem_cons.mp hmem with rfl | hmem'
      · show (writeAll (row.set j v) ps).getD j 0 = v
        have hj : j ∉ ps.map Prod.fst := by
          have := hnd
          simp only [List.map_cons, List.nodup_cons] at this
          exact this.1
        rw [writeAll_getD_not_mem _ _ _ hj]
        exact getD_set_self _ _ _ _ hlen
      · show (writeAll (row.set p.1 p.2) ps).getD j 0 = v
        have hnd' : (ps.map Prod.fst).Nodup := by
          simp only [List.map_cons, List.nodup_cons] at hnd
          exact hnd.2
        exact ih _ hnd' hmem' (by simpa using hlen)

theorem writeAll_sum (row : List ℚ) (ps : List (ℕ × ℚ))
    (hnd : (ps.map Prod.fst).Nodup) (hlt : ∀ p ∈ ps, p.1 < row.length)
    (hz : ∀ p ∈ ps, row.getD p.1 0 = 0) :
    (writeAll row ps).sum = row.sum + (ps.map Prod.snd).sum := by
  induction ps generalizing row with
  | nil => simp [writeAll]
  | cons p ps ih =>
      have hnd' : (ps.map Prod.fst).Nodup := by
        simp only [List.map_cons, List.nodup_cons] at hnd
        exact hnd.2
      have hp1 : p.1 ∉ ps.map Prod.fst := by
        simp only [List.map_cons, List.nodup_cons] at hnd
        exact hnd.1
      show (writeAll (row.set p.1 p.2) ps).sum = _
      rw [ih (row.set p.1 p.2) hnd'
          (fun q hq => by simpa using hlt q (List.mem_cons_of_mem _ hq))
          (fun q hq => by
            rw [getD_set_ne _ _ _
              (fun he => hp1 (by
                rw [he]; exact List.mem_map_of_mem Prod.fst hq))]
            exact hz q (List.mem_cons_of_mem _ hq))]
      rw [sum_set _ _ _ (hlt p (List.mem_cons_self _ _)),
        hz p (List.mem_cons_self _ _)]
      simp only [List.map_cons, List.sum_cons]
      ring

theorem writeAll_nonneg (row : List ℚ) (ps : List (ℕ × ℚ))
    (hrow : nonnegList row) (hv : ∀ p ∈ ps, 0 ≤ p.2) :
    nonnegList (writeAll row ps) := by
  induction ps generalizing row with
  | nil => exact hrow
  | cons p ps ih =>
      show nonnegList (writeAll (row.set p.1 p.2) ps)
      refine ih _ (fun q hq => ?_) (fun q hq => hv q (List.mem_cons_of_mem _ hq))
      rcases mem_set_or _ _ _ _ hq with hm | he
      · exact hrow q hm
      · exact he ▸ hv p (List.mem_cons_self _ _)

theorem scatter_length (n : ℕ) (ps : List (ℕ × ℚ)) :
    (scatter n ps).length = n := by
  rw [scatter, writeAll_length]
  simp

theorem scatter_sum (n : ℕ) (ps : List (ℕ × ℚ))
    (hnd : (ps.map Prod.fst).Nodup) (hlt : ∀ p ∈ ps, p.1 < n) :
    (scatter n ps).sum = (ps.map Prod.snd).sum := by
  rw [scatter, writeAll_sum _ _ hnd (by simpa using hlt)
    (fun p _ => getD_replicate_zero n p.1)]
  simp

theorem scatter_nonneg (n : ℕ) (ps : List (ℕ × ℚ))
    (hv : ∀ p ∈ ps, 0 ≤ p.2) : nonnegList (scatter n ps) :=
  writeAll_nonneg _ _
    (fun _ hq => le_of_eq (List.eq_of_mem_replicate hq).symm) hv

theorem scatter_getD_mem (n : ℕ) (ps : List (ℕ × ℚ)) (j : ℕ) (v : ℚ)
    (hnd : (ps.map Prod.fst).Nodup) (hmem : (j, v) ∈ ps) (hj : j < n) :
    (scatter n ps).getD j 0 = v :=
  writeAll_getD_mem _ _ _ _ hnd hmem (by simpa using hj)

theorem scatter_getD_not_mem (n : ℕ) (ps : List (ℕ × ℚ)) (j : ℕ)
    (hj : j ∉ ps.map Prod.fst) : (scatter n ps).getD j 0 = 0 := by
  rw [scatter, writeAll_getD_not_mem _ _ _ hj]
  exact getD_replicate_zero n j

theorem sum_map_mul_const (l : List ℚ) (c : ℚ) :
    (l.map (fun q => q * c)).sum = l.sum * c := by
  induction l with
  | nil => simp
  | cons a t ih => simp [ih]; ring

theorem projectToSimplex_length (v : List ℚ) (b : ℚ) :
    (projectToSimplex v b).length = v.length := by
  unfold projectToSimplex
  dsimp only
  split_ifs <;> simp

theorem projectToSimplex_sum (v : List ℚ) (b : ℚ) (h : v ≠ []) :
    (projectToSimplex v b).sum = b := by
  unfold projectToSimplex
  dsimp only
  have hlen : v.length ≠ 0 := fun h0 => h (List.length_eq_zero.mp h0)
  split_ifs with hs
  · have hrw : (v.map (fun q => max 0 q)).map
        (fun q => q / (v.map (fun q => max 0 q)).sum * b) =
        (v.map (fun q => max 0 q)).map
          (fun q => q * (b / (v.map (fun q => max 0 q)).sum)) := by
      refine List.map_congr_left (fun a _ => ?_)
      rw [div_mul_eq_mul_div, mul_div_assoc]
    rw [hrw, sum_map_mul_const, mul_comm, div_mul_cancel₀ _ (ne_of_gt hs)]
  · have hne : ((v.map (fun q => max 0 q)).length : ℚ) ≠ 0 := by
      rw [List.length_map]
      exact_mod_cast hlen
    rw [List.map_const', List.sum_replicate, nsmul_eq_mul, mul_comm,
      div_mul_cancel₀ _ hne]

theorem projectToSimplex_nonneg (v : List ℚ) (b : ℚ) (hb : 0 ≤ b) :
    nonnegList (projectToSimplex v b) := by
  unfold projectToSimplex
  dsimp only
  split_ifs with hs
  · intro q hq
    obtain ⟨a, ha, rfl⟩ := List.mem_map.mp hq
    obtain ⟨a', _, rfl⟩ := List.mem_map.mp ha
    exact mul_nonneg (div_nonneg (le_max_left 0 a') (le_of_lt hs)) hb
  · intro q hq
    obtain ⟨a, _, rfl⟩ := List.mem_map.mp hq
    exact div_nonneg hb (by positivity)

theorem projectToSimplex_zero_budget (v : List ℚ) :
    zeroList (projectToSimplex v 0) := by
  unfold projectToSimplex
  dsimp only
  split_ifs with hs
  · intro q hq
    obtain ⟨a, _, rfl⟩ := List.mem_map.mp hq
    simp
  · intro q hq
    obtain ⟨a, _, rfl⟩ := List.mem_map.mp hq
    simp

theorem insertScored_perm (t : ℕ × ℚ) (l : List (ℕ × ℚ)) :
    List.Perm (insertScored t l) (t :: l) := by
  induction l with
  | nil => exact List.Perm.refl _
  | cons u rest ih =>
      unfold insertScored
      split_ifs with h
      · exact (ih.cons u).trans (List.Perm.swap t u rest)
      · exact List.Perm.refl _

theorem foldl_insertScored_perm :
    ∀ (l acc : List (ℕ × ℚ)),
      List.Perm (l.foldl (fun a t => insertScored t a) acc) (l ++ acc) := by
  intro l
  induction l with
  | nil => intro acc; simp
  | cons t l ih =>
      intro acc
      show List.Perm (l.foldl (fun a t => insertScored t a) (insertScored t acc))
        ((t :: l) ++ acc)
      refine ((ih (insertScored t acc)).trans ?_)
      refine (List.Perm.append_left l (insertScored_perm t acc)).trans ?_
      exact List.perm_middle

theorem sortScoredDesc_perm (l : List (ℕ × ℚ)) :
    List.Perm (sortScoredDesc l) l := by
  have := foldl_insertScored_perm l []
  simpa [sortScoredDesc] using this

theorem insertScored_all_eq (t : ℕ × ℚ) (l : List (ℕ × ℚ)) (s : ℚ)
    (ht : t.2 = s) (hl : ∀ u ∈ l, u.2 = s) : insertScored t l = l ++ [t] := by
  induction l with
  | nil => rfl
  | cons u rest ih =>
      unfold insertScored
      rw [if_pos (by rw [ht, hl u (List.mem_cons_self _ _)])]
      rw [ih (fun u hu => hl u (List.mem_cons_of_mem _ hu))]
      rfl

theorem foldl_insertScored_all_eq (s : ℚ) :
    ∀ (l acc : List (ℕ × ℚ)), (∀ u ∈ l, u.2 = s) → (∀ u ∈ acc, u.2 = s) →
      l.foldl (fun a t => insertScored t a) acc = acc ++ l := by
  intro l
  induction l with
  | nil => intro acc _ _; simp
  | cons t l ih =>
      intro acc hl hacc
      show l.foldl _ (insertScored t acc) = acc ++ t :: l
      rw [insertScored_all_eq t acc s (hl t (List.mem_cons_self _ _)) hacc]
      rw [ih (acc ++ [t]) (fun u hu => hl u (List.mem_cons_of_mem _ hu))
        (fun u hu => by
          rcases List.mem_append.mp hu with h | h
          · exact hacc u h
          · rw [List.mem_singleton.mp h]
            exact hl t (List.mem_cons_self _ _))]
      simp

theorem sortScoredDesc_all_eq (l : List (ℕ × ℚ)) (s : ℚ)
    (hl : ∀ u ∈ l, u.2 = s) : sortScoredDesc l = l := by
  have := foldl_insertScored_all_eq s l [] hl (by intro u hu; cases hu)
  simpa [sortScoredDesc] using this

theorem getActiveSet_nodup (x : Mat) (P : EqParams) :
    (getActiveSet x P).Nodup :=
  (List.nodup_range P.N).filter _

theorem getActiveSet_lt (x : Mat) (P : EqParams) :
    ∀ i ∈ getActiveSet x P, i < P.N := fun _ hi =>
  List.mem_range.mp (List.mem_of_mem_filter hi)

theorem sum_map_const_list {α : Type} (l : List α) (c : ℚ) :
    (l.map (fun _ => c)).sum = (l.length : ℚ) * c := by
  rw [List.map_const', List.sum_replicate, nsmul_eq_mul]

theorem sum_map_div_mul (l : List ℚ) (s b : ℚ) (hs : s ≠ 0)
    (hsum : l.sum = s) : (l.map (fun v => v / s * b)).sum = b := by
  have hrw : l.map (fun v => v / s * b) = l.map (fun v => v * (b / s)) := by
    refine List.map_congr_left (fun a _ => ?_)
    rw [div_mul_eq_mul_div, mul_div_assoc]
  rw [hrw, sum_map_mul_const, hsum, mul_comm, div_mul_cancel₀ _ hs]

theorem vget_range_map (f : ℕ → ℚ) (n i : ℕ) (h : i < n) :
    vget ((List.range n).map f) i = f i := by
  rw [vget, List.getD_eq_getElem _ _ (by simp [h])]
  simp

theorem range_map_vget_comp (l : List ℚ) (n : ℕ) (hl : l.length = n)
    (f : ℚ → ℚ) : (List.range n).map (fun i => f (vget l i)) = l.map f := by
  subst hl
  have h1 : (List.range l.length).map (fun i => f (vget l i)) =
      ((List.range l.length).map (fun i => vget l i)).map f := by
    rw [List.map_map]
    rfl
  rw [h1, range_map_vget]

theorem applyJammerStrategy_length (m : ℕ) (y x : Mat) (P : EqParams)
    (A : List ℕ) : (applyJammerStrategy m y x P A).length = P.N := by
  unfold applyJammerStrategy
  by_cases hA : A.isEmpty
  · rw [if_pos hA]; simp
  · rw [if_neg hA]
    cases P.jammerStrategy with
    | J1_uniform =>
        dsimp only
        split_ifs <;> simp [scatter_length]
    | J2_topK =>
        dsimp only
        exact scatter_length _ _
    | J3_optimization =>
        dsimp only
        split_ifs <;> simp [scatter_length]

theorem applyJammerStrategy_nonneg (m : ℕ) (y x : Mat) (P : EqParams)
    (A : List ℕ) (hPJ : 0 ≤ pjget P m) (hx : nonnegMat x)
    (hg : nonnegMat P.g) : nonnegList (applyJammerStrategy m y x P A) := by
  unfold applyJammerStrategy
  by_cases hA : A.isEmpty
  · rw [if_pos hA]
    intro q hq
    exact le_of_eq (List.eq_of_mem_replicate hq).symm
  · rw [if_neg hA]
    cases P.jammerStrategy with
    | J1_uniform =>
        dsimp only
        have hsc : nonnegList (scatter P.N
            ((A.filter (eligFilter P)).map
              (fun i => (i, pjget P m / (A.length : ℚ))))) := by
          refine scatter_nonneg _ _ (fun p hp => ?_)
          obtain ⟨i, _, rfl⟩ := List.mem_map.mp hp
          exact div_nonneg hPJ (by positivity)
        split_ifs with hs
        · intro q hq
          obtain ⟨a, ha, rfl⟩ := List.mem_map.mp hq
          exact mul_nonneg (div_nonneg (hsc a ha) (le_of_lt hs)) hPJ
        · exact hsc
    | J2_topK =>
        dsimp only
        refine scatter_nonneg _ _ (fun p hp => ?_)
        obtain ⟨t, ht, rfl⟩ := List.mem_map.mp hp
        have htt : 0 ≤ t.2 := by
          have hmem := (sortScoredDesc_perm _).mem_iff.mp
            (List.mem_of_mem_take ht)
          obtain ⟨i, _, rfl⟩ := List.mem_map.mp hmem
          exact mul_nonneg (mget_nonneg hx _ _) (mget_nonneg hg _ _)
        dsimp only
        split_ifs with htot
        · exact mul_nonneg (div_nonneg htt (le_of_lt htot)) hPJ
        · exact div_nonneg hPJ (by positivity)
    | J3_optimization =>
        dsimp only
        split_ifs with hgs
        · intro q hq
          obtain ⟨i, _, rfl⟩ := List.mem_map.mp hq
          exact mul_nonneg (div_nonneg (le_max_left _ _) (le_of_lt hgs)) hPJ
        · refine scatter_nonneg _ _ (fun p hp => ?_)
          obtain ⟨i, _, rfl⟩ := List.mem_map.mp hp
          exact div_nonneg hPJ (by positivity)

theorem const_scatter_sum (el : List ℕ) (N : ℕ) (c : ℚ) (hnd : el.Nodup)
    (hlt : ∀ i ∈ el, i < N) :
    (scatter N (el.map (fun i => (i, c)))).sum = (el.length : ℚ) * c := by
  rw [scatter_sum _ _
    (by
      rw [List.map_map]
      have hid : el.map (Prod.fst ∘ fun i => (i, c)) = el := by
        have hc : (Prod.fst ∘ fun i : ℕ => (i, c)) = id := by
          funext i
          rfl
        rw [hc, List.map_id]
      rw [hid]
      exact hnd)
    (fun p hp => by
      obtain ⟨i, hi, rfl⟩ := List.mem_map.mp hp
      exact hlt i hi)]
  rw [List.map_map]
  exact sum_map_const_list _ _

theorem targets_scatter_sum (targets : List (ℕ × ℚ)) (N : ℕ) (PJ : ℚ)
    (hnd : (targets.map Prod.fst).Nodup) (hlt : ∀ t ∈ targets, t.1 < N)
    (hne : targets ≠ []) :
    (scatter N (targets.map (fun t =>
      (t.1, if 0 < (targets.map Prod.snd).sum
        then t.2 / (targets.map Prod.snd).sum * PJ
        else PJ / (targets.length : ℚ))))).sum = PJ := by
  have hlen : ((targets.length : ℚ)) ≠ 0 := by
    have : 0 < targets.length := List.length_pos.mpr hne
    exact_mod_cast Nat.pos_iff_ne_zero.mp this
  rw [scatter_sum _ _
    (by
      rw [List.map_map]
      have hcomp : (Prod.fst ∘ fun t : ℕ × ℚ => (t.1,
          if 0 < (targets.map Prod.snd).sum
          then t.2 / (targets.map Prod.snd).sum * PJ
          else PJ / (targets.length : ℚ))) = Prod.fst := by
        funext t
        rfl
      rw [hcomp]
      exact hnd)
    (fun p hp => by
      obtain ⟨t, ht, rfl⟩ := List.mem_map.mp hp
      exact hlt t ht)]
  rw [List.map_map]
  by_cases htot : 0 < (targets.map Prod.snd).sum
  · have hrw : targets.map (Prod.snd ∘ fun t : ℕ × ℚ => (t.1,
        if 0 < (targets.map Prod.snd).sum
        then t.2 / (targets.map Prod.snd).sum * PJ
        else PJ / (targets.length : ℚ))) =
        (targets.map Prod.snd).map
          (fun q => q / (targets.map Prod.snd).sum * PJ) := by
      rw [List.map_map]
      refine List.map_congr_left (fun t _ => ?_)
      simp only [Function.comp_apply, if_pos htot]
    rw [hrw]
    exact sum_map_div_mul _ _ _ (ne_of_gt htot) rfl
  · have hrw : targets.map (Prod.snd ∘ fun t : ℕ × ℚ => (t.1,
        if 0 < (targets.map Prod.snd).sum
        then t.2 / (targets.map Prod.snd).sum * PJ
        else PJ / (targets.length : ℚ))) =
        targets.map (fun _ => PJ / (targets.length : ℚ)) := by
      refine List.map_congr_left (fun t _ => ?_)
      simp only [Function.comp_apply, if_neg htot]
    rw [hrw, sum_map_const_list, mul_comm, div_mul_cancel₀ _ hlen]

theorem applyJammerStrategy_sum (m : ℕ) (y x : Mat) (P : EqParams)
    (A : List ℕ) (hnd : A.Nodup) (hlt : ∀ i ∈ A, i < P.N)
    (hPJ : 0 ≤ pjget P m) (htopK : 1 ≤ P.topK)
    (helig : eligibleList P A ≠ []) :
    (applyJammerStrategy m y x P A).sum = pjget P m := by
  have hAne : A ≠ [] := by
    intro h
    apply helig
    rw [eligibleList, h]
    rfl
  have hA : ¬(A.isEmpty = true) := by
    simpa [List.isEmpty_iff] using hAne
  have hel_nd : (A.filter (eligFilter P)).Nodup := hnd.filter _
  have hel_lt : ∀ i ∈ A.filter (eligFilter P), i < P.N := fun i hi =>
    hlt i (List.mem_of_mem_filter hi)
  have hel_len : 0 < (A.filter (eligFilter P)).length :=
    List.length_pos.mpr helig
  have hel_lenq : ((A.filter (eligFilter P)).length : ℚ) ≠ 0 := by
    exact_mod_cast Nat.pos_iff_ne_zero.mp hel_len
  have hAlenq : ((A.length : ℚ)) ≠ 0 := by
    have hp : 0 < A.length := List.length_pos.mpr hAne
    exact_mod_cast Nat.pos_iff_ne_zero.mp hp
  unfold applyJammerStrategy
  rw [if_neg hA]
  cases P.jammerStrategy with
  | J1_uniform =>
      dsimp only
      have hsum0 : (scatter P.N ((A.filter (eligFilter P)).map
          (fun i => (i, pjget P m / (A.length : ℚ))))).sum =
          ((A.filter (eligFilter P)).length : ℚ) *
            (pjget P m / (A.length : ℚ)) :=
        const_scatter_sum _ _ _ hel_nd hel_lt
      split_ifs with hs
      · exact sum_map_div_mul _ _ _ (ne_of_gt hs) rfl
      · have hs0 : 0 ≤ (scatter P.N ((A.filter (eligFilter P)).map
            (fun i => (i, pjget P m / (A.length : ℚ))))).sum := by
          rw [hsum0]
          have : 0 ≤ pjget P m / (A.length : ℚ) :=
            div_nonneg hPJ (by positivity)
          positivity
        have hseq : (scatter P.N ((A.filter (eligFilter P)).map
            (fun i => (i, pjget P m / (A.length : ℚ))))).sum = 0 :=
          le_antisymm (not_lt.mp hs) hs0
        have hpow0 : pjget P m / (A.length : ℚ) = 0 := by
          have h0 := hseq
          rw [hsum0] at h0
          rcases mul_eq_zero.mp h0 with hc | hc
          · exact absurd hc hel_lenq
          · exact hc
        have hpj0 : pjget P m = 0 := by
          rcases div_eq_zero_iff.mp hpow0 with hc | hc
          · exact hc
          · exact absurd hc hAlenq
        rw [hseq, hpj0]
  | J2_topK =>
      dsimp only
      refine targets_scatter_sum _ _ _ ?_ ?_ ?_
      · rw [List.map_take]
        refine List.Sublist.nodup (List.take_sublist _ _) ?_
        refine ((sortScoredDesc_perm _).map Prod.fst).nodup_iff.mpr ?_
        rw [List.map_map]
        have hid : (List.filter (eligFilter P) A).map (Prod.fst ∘ fun i =>
            (i, mget x (cfg P i).owner i * gget P m i)) =
            List.filter (eligFilter P) A := by
          have hc : (Prod.fst ∘ fun i : ℕ =>
              (i, mget x (cfg P i).owner i * gget P m i)) = id := by
            funext i
            rfl
          rw [hc, List.map_id]
        rw [hid]
        exact hel_nd
      · intro t ht
        have hmem := (sortScoredDesc_perm _).mem_iff.mp
          (List.mem_of_mem_take ht)
        obtain ⟨i, hi, rfl⟩ := List.mem_map.mp hmem
        exact hel_lt i hi
      · have hslen : (sortScoredDesc ((A.filter (eligFilter P)).map (fun i =>
            (i, mget x (cfg P i).owner i * gget P m i)))).length =
            (A.filter (eligFilter P)).length := by
          rw [(sortScoredDesc_perm _).length_eq, List.length_map]
        have hlenpos : 0 < ((sortScoredDesc ((A.filter (eligFilter P)).map
            (fun i => (i, mget x (cfg P i).owner i * gget P m i)))).take
              (min P.topK (sortScoredDesc ((A.filter (eligFilter P)).map
                (fun i => (i, mget x (cfg P i).owner i *
                  gget P m i)))).length)).length := by
          rw [List.length_take, hslen]
          omega
        exact List.length_pos.mp hlenpos
  | J3_optimization =>
      dsimp only
      split_ifs with hgs
      · have hglen : (attackerGradient m x y P A).length = P.N := by
          unfold attackerGradient
          simp
        have hgrw : (List.range P.N).map (fun i =>
            max 0 (vget (attackerGradient m x y P A) i) /
              ((attackerGradient m x y P A).map (fun v => max 0 v)).sum *
              pjget P m) =
            ((attackerGradient m x y P A).map (fun v => max 0 v)).map
              (fun v => v /
                ((attackerGradient m x y P A).map (fun v => max 0 v)).sum *
                pjget P m) := by
          rw [List.map_map]
          rw [range_map_vget_comp (attackerGradient m x y P A) P.N hglen
            (fun v => max 0 v /
              ((attackerGradient m x y P A).map (fun v => max 0 v)).sum *
              pjget P m)]
          exact List.map_congr_left (fun v _ => rfl)
        rw [hgrw]
        exact sum_map_div_mul _ _ _ (ne_of_gt hgs) rfl
      · have hmax : (max 1 (A.filter (eligFilter P)).length) =
            (A.filter (eligFilter P)).length := by
          omega
        rw [const_scatter_sum _ _ _ hel_nd hel_lt, hmax, mul_comm,
          div_mul_cancel₀ _ hel_lenq]

theorem foldl_range_invariant {β : Type} (Inv : ℕ → β → Prop)
    (step : β → ℕ → β) (init : β) :
    ∀ n : ℕ, Inv 0 init →
      (∀ k b, k < n → Inv k b → Inv (k + 1) (step b k)) →
      Inv n ((List.range n).foldl step init) := by
  intro n
  induction n with
  | zero => intro h0 _; simpa using h0
  | succ n ih =>
      intro h0 hstep
      rw [List.range_succ, List.foldl_append, List.foldl_cons, List.foldl_nil]
      exact hstep n _ (Nat.lt_succ_self n)
        (ih h0 (fun k b hk hb => hstep k b (Nat.lt_succ_of_lt hk) hb))

theorem foldl_invariant {α β : Type} (f : β → α → β) (Inv : β → Prop) :
    ∀ (l : List α) (init : β), Inv init →
      (∀ b a, a ∈ l → Inv b → Inv (f b a)) → Inv (l.foldl f init) := by
  intro l
  induction l with
  | nil => intro init h0 _; exact h0
  | cons a l ih =>
      intro init h0 hstep
      exact ih _ (hstep init a (List.mem_cons_self _ _) h0)
        (fun b q hq hb => hstep b q (List.mem_cons_of_mem _ hq) hb)

theorem vget_zeroList {v : List ℚ} (h : zeroList v) (i : ℕ) : vget v i = 0 := by
  rcases getD_mem_or_eq v i 0 with hm | he
  · exact h _ hm
  · exact he

theorem damped_row_sum (N : ℕ) (α b : ℚ) (old cand : List ℚ)
    (hol : old.length = N) (hos : old.sum = b) (hcl : cand.length = N)
    (hcs : cand.sum = b) :
    ((List.range N).map (fun i =>
      (1 - α) * vget old i + α * vget cand i)).sum = b := by
  rw [sum_list_range, Finset.sum_add_distrib, ← Finset.mul_sum,
    ← Finset.mul_sum]
  have h1 : ∑ i ∈ Finset.range N, vget old i = b := by
    rw [← sum_list_range, sum_vget_range _ _ hol, hos]
  have h2 : ∑ i ∈ Finset.range N, vget cand i = b := by
    rw [← sum_list_range, sum_vget_range _ _ hcl, hcs]
  rw [h1, h2]
  ring

theorem matShape_row {rows cols : ℕ} {A : Mat} (h : matShape rows cols A)
    (r : ℕ) (hr : r < rows) : (A.getD r []).length = cols := by
  have hrl : r < A.length := by rw [h.1]; exact hr
  rw [List.getD_eq_getElem _ _ hrl]
  exact h.2 _ (List.getElem_mem hrl)

theorem ne_nil_of_len (l : List ℚ) (n : ℕ) (h : l.length = n) (hn : 0 < n) :
    l ≠ [] :=
  List.ne_nil_of_length_pos (h ▸ hn)

theorem defenderPhase_shape (P : EqParams) (x y : Mat)
    (hx : matShape P.D P.N x) : matShape P.D P.N (defenderPhase P x y).1 := by
  unfold defenderPhase
  refine foldl_range_invariant
    (fun _ (st : Mat × List ℚ × ℚ) => matShape P.D P.N st.1) _ _ P.D hx ?_
  intro k st _ hst
  dsimp only
  refine ⟨by simp [hst.1], ?_⟩
  intro r hr
  rcases mem_set_or _ _ _ _ hr with hm | he
  · exact hst.2 r hm
  · rw [he]
    simp

theorem defenderPhase_nonneg (P : EqParams) (x y : Mat) (hx : nonnegMat x)
    (hPT : nonnegList P.PT) (ha0 : 0 ≤ P.alpha) (ha1 : P.alpha ≤ 1) :
    nonnegMat (defenderPhase P x y).1 := by
  unfold defenderPhase
  refine foldl_range_invariant
    (fun _ (st : Mat × List ℚ × ℚ) => nonnegMat st.1) _ _ P.D hx ?_
  intro k st _ hst
  dsimp only
  intro r hr
  rcases mem_set_or _ _ _ _ hr with hm | he
  · exact hst r hm
  · rw [he]
    intro q hq
    obtain ⟨i, _, rfl⟩ := List.mem_map.mp hq
    refine add_nonneg (mul_nonneg (by linarith) (mget_nonneg hx _ _))
      (mul_nonneg ha0 (vget_nonneg ?_ i))
    exact projectToSimplex_nonneg _ _ (vget_nonneg hPT k)

theorem defenderPhase_sum (P : EqParams) (x y : Mat) (hN : 0 < P.N)
    (hx : matShape P.D P.N x)
    (hxs : ∀ d, d < P.D → (x.getD d []).sum = ptget P d) :
    ∀ d, d < P.D → ((defenderPhase P x y).1.getD d []).sum = ptget P d := by
  unfold defenderPhase
  refine fun d hd => (foldl_range_invariant
    (fun k (st : Mat × List ℚ × ℚ) => st.1.length = P.D ∧
      (∀ j, k ≤ j → st.1.getD j [] = x.getD j []) ∧
      (∀ j, j < k → (st.1.getD j []).sum = ptget P j))
    _ _ P.D ⟨hx.1, fun _ _ => rfl, fun j hj => absurd hj (Nat.not_lt_zero j)⟩
    ?_).2.2 d hd
  intro k st hk hst
  dsimp only
  refine ⟨by simp [hst.1], ?_, ?_⟩
  · intro j hj
    rw [getD_set_ne _ _ _ (by omega : k ≠ j)]
    exact hst.2.1 j (by omega)
  · intro j hj
    by_cases hjk : j = k
    · subst hjk
      rw [getD_set_self _ _ _ _ (by rw [hst.1]; exact hk)]
      have hrowk : st.1.getD j [] = x.getD j [] := hst.2.1 j le_rfl
      have hxlen : (x.getD j []).length = P.N := matShape_row hx j hk
      have hulen : ((st.1.getD j []).mapIdx (fun i val =>
          val + stepSize * vget (defenderGradient j st.1 y P) i)).length =
          P.N := by
        rw [List.length_mapIdx, hrowk, hxlen]
      have hclen : (projectToSimplex ((st.1.getD j []).mapIdx (fun i val =>
          val + stepSize * vget (defenderGradient j st.1 y P) i))
          (ptget P j)).length = P.N := by
        rw [projectToSimplex_length]
        exact hulen
      have hcsum : (projectToSimplex ((st.1.getD j []).mapIdx (fun i val =>
          val + stepSize * vget (defenderGradient j st.1 y P) i))
          (ptget P j)).sum = ptget P j :=
        projectToSimplex_sum _ _ (ne_nil_of_len _ _ hulen hN)
      exact damped_row_sum P.N P.alpha (ptget P j) (x.getD j []) _ hxlen
        (hxs j hk) hclen hcsum
    · rw [getD_set_ne _ _ _ (fun he => hjk he.symm)]
      exact hst.2.2 j (by omega)

theorem defenderPhase_zero_row (P : EqParams) (x y : Mat) (d : ℕ)
    (hd : d < P.D) (hxlen : x.length = P.D) (hPTd : ptget P d = 0)
    (hz : zeroList (x.getD d [])) :
    zeroList ((defenderPhase P x y).1.getD d []) := by
  unfold defenderPhase
  refine (foldl_range_invariant
    (fun k (st : Mat × List ℚ × ℚ) => st.1.length = P.D ∧
      (d < k → zeroList (st.1.getD d [])) ∧
      (k ≤ d → st.1.getD d [] = x.getD d []))
    _ _ P.D ⟨hxlen, fun h => absurd h (Nat.not_lt_zero d), fun _ => rfl⟩
    ?_).2.1 hd
  intro k st hk hst
  dsimp only
  refine ⟨by simp [hst.1], ?_, ?_⟩
  · intro hdk
    by_cases hkd : k = d
    · subst hkd
      rw [getD_set_self _ _ _ _ (by rw [hst.1]; exact hk)]
      intro q hq
      obtain ⟨i, _, rfl⟩ := List.mem_map.mp hq
      have h1 : mget x k i = 0 := vget_zeroList hz i
      have h2 : vget (projectToSimplex ((st.1.getD k []).mapIdx (fun i val =>
          val + stepSize * vget (defenderGradient k st.1 y P) i))
          (ptget P k)) i = 0 := by
        refine vget_zeroList ?_ i
        rw [hPTd]
        exact projectToSimplex_zero_budget _
      rw [h1, h2]
      ring
    · rw [getD_set_ne _ _ _ hkd]
      exact hst.2.1 (by omega)
  · intro hk1d
    rw [getD_set_ne _ _ _ (by omega : k ≠ d)]
    exact hst.2.2 (by omega)

theorem attackerPhase_shape (P : EqParams) (x y : Mat) (A : List ℕ)
    (mc0 : ℚ) (hy : matShape P.M P.N y) :
    matShape P.M P.N (attackerPhase P x y A mc0).1 := by
  unfold attackerPhase
  refine foldl_range_invariant
    (fun _ (st : Mat × List ℚ × ℚ) => matShape P.M P.N st.1) _ _ P.M hy ?_
  intro k st _ hst
  dsimp only
  refine ⟨by simp [hst.1], ?_⟩
  intro r hr
  rcases mem_set_or _ _ _ _ hr with hm | he
  · exact hst.2 r hm
  · rw [he]
    simp

theorem attackerPhase_nonneg (P : EqParams) (x y : Mat) (A : List ℕ)
    (mc0 : ℚ) (hy : nonnegMat y) (hx : nonnegMat x) (hPJ : nonnegList P.PJ)
    (hg : nonnegMat P.g) (ha0 : 0 ≤ P.alpha) (ha1 : P.alpha ≤ 1) :
    nonnegMat (attackerPhase P x y A mc0).1 := by
  unfold attackerPhase
  refine foldl_range_invariant
    (fun _ (st : Mat × List ℚ × ℚ) => nonnegMat st.1) _ _ P.M hy ?_
  intro k st _ hst
  dsimp only
  intro r hr
  rcases mem_set_or _ _ _ _ hr with hm | he
  · exact hst r hm
  · rw [he]
    intro q hq
    obtain ⟨i, _, rfl⟩ := List.mem_map.mp hq
    refine add_nonneg (mul_nonneg (by linarith) (mget_nonneg hy _ _))
      (mul_nonneg ha0 (vget_nonneg ?_ i))
    split_ifs
    · exact applyJammerStrategy_nonneg _ _ _ _ _ (vget_nonneg hPJ k) hx hg
    · exact projectToSimplex_nonneg _ _ (vget_nonneg hPJ k)

theorem attackerPhase_sum (P : EqParams) (x y : Mat) (A : List ℕ) (mc0 : ℚ)
    (hN : 0 < P.N) (hy : matShape P.M P.N y) (hnd : A.Nodup)
    (hlt : ∀ i ∈ A, i < P.N) (hPJ : nonnegList P.PJ) (htopK : 1 ≤ P.topK)
    (hys : ∀ m, m < P.M → (y.getD m []).sum = pjget P m)
    (helig : eligibleList P A ≠ []) :
    ∀ m, m < P.M → ((attackerPhase P x y A mc0).1.getD m []).sum = pjget P m := by
  unfold attackerPhase
  refine fun m hm => (foldl_range_invariant
    (fun k (st : Mat × List ℚ × ℚ) => st.1.length = P.M ∧
      (∀ j, k ≤ j → st.1.getD j [] = y.getD j []) ∧
      (∀ j, j < k → (st.1.getD j []).sum = pjget P j))
    _ _ P.M ⟨hy.1, fun _ _ => rfl, fun j hj => absurd hj (Nat.not_lt_zero j)⟩
    ?_).2.2 m hm
  intro k st hk hst
  dsimp only
  refine ⟨by simp [hst.1], ?_, ?_⟩
  · intro j hj
    rw [getD_set_ne _ _ _ (by omega : k ≠ j)]
    exact hst.2.1 j (by omega)
  · intro j hj
    by_cases hjk : j = k
    · subst hjk
      rw [getD_set_self _ _ _ _ (by rw [hst.1]; exact hk)]
      have hrowk : st.1.getD j [] = y.getD j [] := hst.2.1 j le_rfl
      have hylen : (y.getD j []).length = P.N := matShape_row hy j hk
      have hclen : (if (P.attackerMode == AttackerMode.coordinated) ||
          !(P.jammerStrategy == JammerStrategy.J3_optimization) then
            applyJammerStrategy j st.1 x P A
          else
            projectToSimplex ((st.1.getD j []).mapIdx (fun i val =>
              val + stepSize * vget (attackerGradient j x st.1 P A) i))
              (pjget P j)).length = P.N := by
        split_ifs
        · exact applyJammerStrategy_length _ _ _ _ _
        · rw [projectToSimplex_length, List.length_mapIdx, hrowk, hylen]
      have hcsum : (if (P.attackerMode == AttackerMode.coordinated) ||
          !(P.jammerStrategy == JammerStrategy.J3_optimization) then
            applyJammerStrategy j st.1 x P A
          else
            projectToSimplex ((st.1.getD j []).mapIdx (fun i val =>
              val + stepSize * vget (attackerGradient j x st.1 P A) i))
              (pjget P j)).sum = pjget P j := by
        split_ifs
        · exact applyJammerStrategy_sum _ _ _ _ _ hnd hlt
            (vget_nonneg hPJ j) htopK helig
        · refine projectToSimplex_sum _ _ (ne_nil_of_len _ P.N ?_ hN)
          rw [List.length_mapIdx, hrowk, hylen]
      exact damped_row_sum P.N P.alpha (pjget P j) (y.getD j []) _ hylen
        (hys j hk) hclen hcsum
    · rw [getD_set_ne _ _ _ (fun he => hjk he.symm)]
      exact hst.2.2 j (by omega)

/-- C1 (amended): in every iteration, each defender row that entered the
iteration summing to `PT[d]` still sums to `PT[d]` at the end of the
iteration; and each attacker row that entered summing to `PJ[m]` still
sums to `PJ[m]` provided the iteration's eligible channel set (the new
active set filtered by the oracle rule) is non-empty.  The unconditional
claim fails exactly where these provisos bite: an attacker facing an
empty eligible set gets the all-zero candidate row, and a defender owning
only decoy channels is funded below budget at initialization. -/
theorem c1_iteration_budget_preservation (P : EqParams) (x y : Mat)
    (hN : 0 < P.N) (hx : matShape P.D P.N x) (hy : matShape P.M P.N y)
    (hPJ : nonnegList P.PJ) (htopK : 1 ≤ P.topK)
    (hxs : ∀ d, d < P.D → (x.getD d []).sum = ptget P d)
    (hys : ∀ m, m < P.M → (y.getD m []).sum = pjget P m) :
    (∀ d, d < P.D → ((iterCore P x y).1.getD d []).sum = ptget P d) ∧
    (eligibleList P (iterCore P x y).2.2.1 ≠ [] →
      ∀ m, m < P.M →
        ((iterCore P x y).2.1.getD m []).sum = pjget P m) := by
  constructor
  · intro d hd
    exact defenderPhase_sum P x y hN hx hxs d hd
  · intro helig m hm
    exact attackerPhase_sum P (defenderPhase P x y).1 y
      (getActiveSet (defenderPhase P x y).1 P) (defenderPhase P x y).2.2
      hN hy (getActiveSet_nodup _ _) (getActiveSet_lt _ _) hPJ htopK hys
      helig m hm

set_option maxRecDepth 20000 in
unseal Rat.add Rat.mul Rat.sub Rat.inv in
theorem c1_budget_witness :
    (0 < exampleTwoChannels.N ∧
      matShape exampleTwoChannels.D exampleTwoChannels.N [[1, 1]] ∧
      matShape exampleTwoChannels.M exampleTwoChannels.N [[3, 0]] ∧
      nonnegList exampleTwoChannels.PJ ∧ 1 ≤ exampleTwoChannels.topK ∧
      (∀ d, d < exampleTwoChannels.D →
        (([[1, 1]] : Mat).getD d []).sum = ptget exampleTwoChannels d) ∧
      (∀ m, m < exampleTwoChannels.M →
        (([[3, 0]] : Mat).getD m []).sum = pjget exampleTwoChannels m)) ∧
    ((∀ d, d < exampleTwoChannels.D →
        ((iterCore exampleTwoChannels [[1, 1]] [[3, 0]]).1.getD d []).sum =
          ptget exampleTwoChannels d) ∧
      (eligibleList exampleTwoChannels
          (iterCore exampleTwoChannels [[1, 1]] [[3, 0]]).2.2.1 ≠ [] →
        ∀ m, m < exampleTwoChannels.M →
          ((iterCore exampleTwoChannels [[1, 1]] [[3, 0]]).2.1.getD m
            []).sum = pjget exampleTwoChannels m)) :=
  ⟨⟨by decide, by decide, by decide, by decide, by decide, by decide,
      by decide⟩,
    c1_iteration_budget_preservation exampleTwoChannels [[1, 1]] [[3, 0]]
      (by decide) (by decide) (by decide) (by decide) (by decide)
      (by decide) (by decide)⟩

theorem writeAll_zeroList (row : List ℚ) (ps : List (ℕ × ℚ))
    (hrow : zeroList row) (hv : ∀ p ∈ ps, p.2 = 0) :
    zeroList (writeAll row ps) := by
  induction ps generalizing row with
  | nil => exact hrow
  | cons p ps ih =>
      show zeroList (writeAll (row.set p.1 p.2) ps)
      refine ih _ (fun q hq => ?_)
        (fun q hq => hv q (List.mem_cons_of_mem _ hq))
      rcases mem_set_or _ _ _ _ hq with hm | he
      · exact hrow q hm
      · exact he ▸ hv p (List.mem_cons_self _ _)

theorem scatter_zeroList (n : ℕ) (ps : List (ℕ × ℚ))
    (hv : ∀ p ∈ ps, p.2 = 0) : zeroList (scatter n ps) :=
  writeAll_zeroList _ _ (fun _ hq => List.eq_of_mem_replicate hq) hv

theorem initDefenderRow_length (P : EqParams) (d : ℕ) (w : List ℚ) :
    (initDefenderRow P d w).length = P.N := by
  unfold initDefenderRow
  dsimp only
  split_ifs with h1 h2 h3
  · simp
  · exact scatter_length _ _
  · exact foldl_invariant _ (fun (st : List ℚ × ℚ) => st.1.length = P.N) _ _
      (by simp) (fun b a _ hb => by simp [hb])
  · refine foldl_invariant _ (fun (row : List ℚ) => row.length = P.N) _ _
      ?_ (fun b a _ hb => by simp [hb])
    exact foldl_invariant _ (fun (st : List ℚ × ℚ) => st.1.length = P.N) _ _
      (by simp) (fun b a _ hb => by simp [hb])

theorem initDefenderRow_nonneg (P : EqParams) (d : ℕ) (w : List ℚ)
    (hPT : nonnegList P.PT) (htau : 0 ≤ P.tau) (hw : nonnegList w) :
    nonnegList (initDefenderRow P d w) := by
  unfold initDefenderRow
  dsimp only
  have hdec : ∀ decoys : List ℕ,
      (fun (st : List ℚ × ℚ) => nonnegList st.1 ∧ 0 ≤ st.2)
        (decoys.foldl (fun (st : List ℚ × ℚ) i =>
          let a := min P.tau (st.2 / ((max 1 decoys.length : ℕ) : ℚ))
          (st.1.set i a, st.2 - a)) (List.replicate P.N 0, ptget P d)) := by
    intro decoys
    refine foldl_invariant _
      (fun (st : List ℚ × ℚ) => nonnegList st.1 ∧ 0 ≤ st.2) _ _
      ⟨fun q hq => le_of_eq (List.eq_of_mem_replicate hq).symm,
        vget_nonneg hPT d⟩ ?_
    intro b a _ hb
    dsimp only
    have hval : 0 ≤ min P.tau (b.2 / ((max 1 decoys.length : ℕ) : ℚ)) :=
      le_min htau (div_nonneg hb.2 (by positivity))
    have hle : min P.tau (b.2 / ((max 1 decoys.length : ℕ) : ℚ)) ≤ b.2 := by
      refine le_trans (min_le_right _ _) (div_le_self hb.2 ?_)
      exact_mod_cast le_max_left 1 decoys.length
    refine ⟨fun q hq => ?_, by linarith⟩
    rcases mem_set_or _ _ _ _ hq with hm | he
    · exact hb.1 q hm
    · exact he ▸ hval
  split_ifs with h1 h2 h3
  · intro q hq
    exact le_of_eq (List.eq_of_mem_replicate hq).symm
  · refine scatter_nonneg _ _ (fun p hp => ?_)
    obtain ⟨pr, _, rfl⟩ := List.mem_map.mp hp
    refine mul_nonneg (div_nonneg (vget_nonneg ?_ _) (List.sum_nonneg ?_))
      (vget_nonneg hPT d)
    · intro q hq
      exact hw q (List.mem_of_mem_take hq)
    · intro q hq
      exact hw q (List.mem_of_mem_take hq)
  · exact (hdec _).1
  · refine foldl_invariant _ (fun (row : List ℚ) => nonnegList row) _ _
      (hdec _).1 ?_
    intro b a _ hb
    intro q hq
    rcases mem_set_or _ _ _ _ hq with hm | he
    · exact hb q hm
    · rw [he]
      exact div_nonneg (hdec _).2 (by positivity)

theorem initDefenderRow_zero (P : EqParams) (d : ℕ) (w : List ℚ)
    (htau : 0 ≤ P.tau) (hPTd : ptget P d = 0) :
    zeroList (initDefenderRow P d w) := by
  unfold initDefenderRow
  dsimp only
  have hdec : ∀ decoys : List ℕ,
      (fun (st : List ℚ × ℚ) => zeroList st.1 ∧ st.2 = 0)
        (decoys.foldl (fun (st : List ℚ × ℚ) i =>
          let a := min P.tau (st.2 / ((max 1 decoys.length : ℕ) : ℚ))
          (st.1.set i a, st.2 - a)) (List.replicate P.N 0, ptget P d)) := by
    intro decoys
    refine foldl_invariant _
      (fun (st : List ℚ × ℚ) => zeroList st.1 ∧ st.2 = 0) _ _
      ⟨fun q hq => List.eq_of_mem_replicate hq, hPTd⟩ ?_
    intro b a _ hb
    dsimp only
    have hval : min P.tau (b.2 / ((max 1 decoys.length : ℕ) : ℚ)) = 0 := by
      rw [hb.2, zero_div]
      exact min_eq_right htau
    rw [hval]
    refine ⟨fun q hq => ?_, by rw [hb.2]; ring⟩
    rcases mem_set_or _ _ _ _ hq with hm | he
    · exact hb.1 q hm
    · exact he
  split_ifs with h1 h2 h3
  · intro q hq
    exact List.eq_of_mem_replicate hq
  · refine scatter_zeroList _ _ (fun p hp => ?_)
    obtain ⟨pr, _, rfl⟩ := List.mem_map.mp hp
    dsimp only
    rw [hPTd, mul_zero]
  · exact (hdec _).1
  · refine foldl_invariant _ (fun (row : List ℚ) => zeroList row) _ _
      (hdec _).1 ?_
    intro b a _ hb
    intro q hq
    rcases mem_set_or _ _ _ _ hq with hm | he
    · exact hb q hm
    · rw [he, (hdec _).2, zero_div]

theorem initX_shape (P : EqParams) (W : List (List ℚ)) :
    matShape P.D P.N (initX P W) := by
  refine ⟨by simp [initX], ?_⟩
  intro r hr
  obtain ⟨d, _, rfl⟩ := List.mem_map.mp hr
  exact initDefenderRow_length P d _

theorem initX_nonneg (P : EqParams) (W : List (List ℚ))
    (hPT : nonnegList P.PT) (htau : 0 ≤ P.tau) (hW : nonnegMat W) :
    nonnegMat (initX P W) := by
  intro r hr
  obtain ⟨d, _, rfl⟩ := List.mem_map.mp hr
  exact initDefenderRow_nonneg P d _ hPT htau (nonnegList_getD_row hW d)

theorem initX_zero_row (P : EqParams) (W : List (List ℚ)) (d : ℕ)
    (htau : 0 ≤ P.tau) (hPTd : ptget P d = 0) :
    zeroList ((initX P W).getD d []) := by
  by_cases hd : d < P.D
  · have hlen : d < (initX P W).length := by simp [initX, hd]
    rw [List.getD_eq_getElem _ _ hlen]
    simp only [initX, List.getElem_map, List.getElem_range]
    exact initDefenderRow_zero P d _ htau hPTd
  · have hlen : (initX P W).length ≤ d := by
      simp only [initX, List.length_map, List.length_range]
      omega
    rw [List.getD_eq_default _ _ hlen]
    intro q hq
    cases hq

theorem initY_shape (P : EqParams) (x : Mat) : matShape P.M P.N (initY P x) := by
  refine ⟨by simp [initY], ?_⟩
  intro r hr
  obtain ⟨m, _, rfl⟩ := List.mem_map.mp hr
  exact applyJammerStrategy_length _ _ _ _ _

theorem initY_nonneg (P : EqParams) (x : Mat) (hPJ : nonnegList P.PJ)
    (hx : nonnegMat x) (hg : nonnegMat P.g) : nonnegMat (initY P x) := by
  intro r hr
  obtain ⟨m, _, rfl⟩ := List.mem_map.mp hr
  exact applyJammerStrategy_nonneg _ _ _ _ _ (vget_nonneg hPJ m) hx hg

theorem stateAt_shape (P : EqParams) (W : List (List ℚ)) :
    ∀ k, matShape P.D P.N (stateAt P W k).1 ∧
      matShape P.M P.N (stateAt P W k).2 := by
  intro k
  induction k with
  | zero => exact ⟨initX_shape P W, initY_shape P _⟩
  | succ k ih =>
      exact ⟨defenderPhase_shape P _ _ ih.1, attackerPhase_shape P _ _ _ _ ih.2⟩

theorem stateAt_nonneg (P : EqParams) (W : List (List ℚ))
    (hPT : nonnegList P.PT) (hPJ : nonnegList P.PJ) (hg : nonnegMat P.g)
    (hW : nonnegMat W) (ha0 : 0 ≤ P.alpha) (ha1 : P.alpha ≤ 1)
    (htau : 0 ≤ P.tau) :
    ∀ k, nonnegMat (stateAt P W k).1 ∧ nonnegMat (stateAt P W k).2 := by
  intro k
  induction k with
  | zero =>
      exact ⟨initX_nonneg P W hPT htau hW,
        initY_nonneg P _ hPJ (initX_nonneg P W hPT htau hW) hg⟩
  | succ k ih =>
      exact ⟨defenderPhase_nonneg P _ _ ih.1 hPT ha0 ha1,
        attackerPhase_nonneg P _ _ _ _ ih.2
          (defenderPhase_nonneg P _ _ ih.1 hPT ha0 ha1) hPJ hg ha0 ha1⟩

theorem runLoop_state_inv (P : EqParams) (lg : ℚ → ℚ)
    (Inv : Mat → Mat → Prop)
    (hstep : ∀ x y, Inv x y → Inv (iterCore P x y).1 (iterCore P x y).2.1) :
    ∀ (fuel k : ℕ) (x y : Mat) (hist : List ConvergenceEntry) (its : ℕ)
      (mc : WithTop ℚ), Inv x y →
      Inv (runLoop P lg fuel k x y hist its mc).x
        (runLoop P lg fuel k x y hist its mc).y := by
  intro fuel
  induction fuel with
  | zero => intro k x y hist its mc h; exact h
  | succ fuel ih =>
      intro k x y hist its mc h
      by_cases hc : (iterStep P lg k x y).2.2.maxChange < P.epsilon
      · simp only [runLoop, hc, if_pos]
        exact hstep x y h
      · simp only [runLoop, hc, if_neg, not_false_iff]
        exact ih _ _ _ _ _ _ (hstep x y h)

theorem runEquilibrium_defenders (P : EqParams) (lg lg2 : ℚ → ℚ)
    (W : List (List ℚ)) :
    (runEquilibrium P lg lg2 W).defenders = (List.range P.D).map (fun d =>
      { playerId := d
        allocation := (runLoop P lg P.maxIter 0 (initX P W)
          (initY P (initX P W)) [] 0 ⊤).x.getD d []
        utility := calculateDefenderUtility lg d
          (runLoop P lg P.maxIter 0 (initX P W) (initY P (initX P W)) [] 0
            ⊤).x
          (runLoop P lg P.maxIter 0 (initX P W) (initY P (initX P W)) [] 0
            ⊤).y P
          (getActiveSet (runLoop P lg P.maxIter 0 (initX P W)
            (initY P (initX P W)) [] 0 ⊤).x P) true }) := rfl

theorem runEquilibrium_attackers (P : EqParams) (lg lg2 : ℚ → ℚ)
    (W : List (List ℚ)) :
    (runEquilibrium P lg lg2 W).attackers = (List.range P.M).map (fun m =>
      { playerId := m
        allocation := (runLoop P lg P.maxIter 0 (initX P W)
          (initY P (initX P W)) [] 0 ⊤).y.getD m []
        utility := calculateAttackerUtility lg m
          (runLoop P lg P.maxIter 0 (initX P W) (initY P (initX P W)) [] 0
            ⊤).x
          (runLoop P lg P.maxIter 0 (initX P W) (initY P (initX P W)) [] 0
            ⊤).y P
          (getActiveSet (runLoop P lg P.maxIter 0 (initX P W)
            (initY P (initX P W)) [] 0 ⊤).x P) }) := rfl

/-- C5: for every run (with data-model–conformant parameters: non-negative
budgets, gains, damping in `[0, 1]`, `tau ≥ 0`, non-negative PRNG draws),
every defender and attacker allocation entry is non-negative at the end of
every iteration, and hence every allocation entry of the returned result
is non-negative. -/
theorem c5_allocations_nonneg (P : EqParams) (lg lg2 : ℚ → ℚ)
    (W : List (List ℚ)) (hPT : nonnegList P.PT) (hPJ : nonnegList P.PJ)
    (hg : nonnegMat P.g) (hW : nonnegMat W) (ha0 : 0 ≤ P.alpha)
    (ha1 : P.alpha ≤ 1) (htau : 0 ≤ P.tau) :
    (∀ k, nonnegMat (stateAt P W k).1 ∧ nonnegMat (stateAt P W k).2) ∧
    (∀ p ∈ (runEquilibrium P lg lg2 W).defenders,
      nonnegList p.allocation) ∧
    (∀ p ∈ (runEquilibrium P lg lg2 W).attackers,
      nonnegList p.allocation) := by
  have hinv := runLoop_state_inv P lg (fun a b => nonnegMat a ∧ nonnegMat b)
    (fun a b h => ⟨defenderPhase_nonneg P a b h.1 hPT ha0 ha1,
      attackerPhase_nonneg P _ b _ _ h.2
        (defenderPhase_nonneg P a b h.1 hPT ha0 ha1) hPJ hg ha0 ha1⟩)
    P.maxIter 0 (initX P W) (initY P (initX P W)) [] 0 ⊤
    ⟨initX_nonneg P W hPT htau hW,
      initY_nonneg P _ hPJ (initX_nonneg P W hPT htau hW) hg⟩
  refine ⟨stateAt_nonneg P W hPT hPJ hg hW ha0 ha1 htau, ?_, ?_⟩
  · intro p hp
    rw [runEquilibrium_defenders] at hp
    obtain ⟨d, _, rfl⟩ := List.mem_map.mp hp
    exact nonnegList_getD_row hinv.1 d
  · intro p hp
    rw [runEquilibrium_attackers] at hp
    obtain ⟨m, _, rfl⟩ := List.mem_map.mp hp
    exact nonnegList_getD_row hinv.2 m

set_option maxRecDepth 20000 in
unseal Rat.add Rat.mul Rat.sub Rat.inv in
theorem c5_witness :
    (nonnegList exampleEmptyActive.PT ∧ nonnegList exampleEmptyActive.PJ ∧
      nonnegMat exampleEmptyActive.g ∧ nonnegMat ([] : List (List ℚ)) ∧
      0 ≤ exampleEmptyActive.alpha ∧ exampleEmptyActive.alpha ≤ 1 ∧
      0 ≤ exampleEmptyActive.tau) ∧
    ((∀ k, nonnegMat (stateAt exampleEmptyActive [] k).1 ∧
        nonnegMat (stateAt exampleEmptyActive [] k).2) ∧
      (∀ p ∈ (runEquilibrium exampleEmptyActive lgId lgId []).defenders,
        nonnegList p.allocation) ∧
      (∀ p ∈ (runEquilibrium exampleEmptyActive lgId lgId []).attackers,
        nonnegList p.allocation)) :=
  ⟨⟨by decide, by decide, by decide, by decide, by decide, by decide,
      by decide⟩,
    c5_allocations_nonneg exampleEmptyActive lgId lgId [] (by decide)
      (by decide) (by decide) (by decide) (by decide) (by decide)
      (by decide)⟩

theorem interference_ge (P : EqParams) (y : Mat) (i : ℕ)
    (hy : nonnegMat y) (hg : nonnegMat P.g) :
    P.sigma2 ≤ interference P y i := by
  unfold interference
  have h : 0 ≤ ((List.range P.M).map
      (fun m => mget y m i * gget P m i)).sum := by
    refine List.sum_nonneg (fun q hq => ?_)
    obtain ⟨m, _, rfl⟩ := List.mem_map.mp hq
    exact mul_nonneg (mget_nonneg hy _ _) (mget_nonneg hg _ _)
  linarith

/-- C9: when `PT[d] = 0`, defender `d`'s allocation row is all-zero at
initialization and stays all-zero after every iteration; and every SINR
denominator computed against the run's attacker state is bounded below by
`sigma2`, hence strictly positive (`sigma2 > 0`), so no division by zero
occurs. -/
theorem c9_zero_budget_defender (P : EqParams) (W : List (List ℚ)) (d : ℕ)
    (hd : d < P.D) (hPT : nonnegList P.PT) (hPJ : nonnegList P.PJ)
    (hg : nonnegMat P.g) (hW : nonnegMat W) (ha0 : 0 ≤ P.alpha)
    (ha1 : P.alpha ≤ 1) (htau : 0 ≤ P.tau) (hs2 : 0 < P.sigma2)
    (hPTd : ptget P d = 0) :
    (∀ k, zeroList ((stateAt P W k).1.getD d [])) ∧
    (∀ k i, P.sigma2 ≤ interference P (stateAt P W k).2 i ∧
      0 < interference P (stateAt P W k).2 i) := by
  constructor
  · intro k
    induction k with
    | zero => exact initX_zero_row P W d htau hPTd
    | succ k ih =>
        exact defenderPhase_zero_row P _ _ d hd
          ((stateAt_shape P W k).1).1 hPTd ih
  · intro k i
    have hynn := (stateAt_nonneg P W hPT hPJ hg hW ha0 ha1 htau k).2
    have h := interference_ge P _ i hynn hg
    exact ⟨h, lt_of_lt_of_le hs2 h⟩

set_option maxRecDepth 20000 in
unseal Rat.add Rat.mul Rat.sub Rat.inv in
theorem c9_witness :
    (0 < exampleZeroBudget.D ∧ nonnegList exampleZeroBudget.PT ∧
      nonnegList exampleZeroBudget.PJ ∧ nonnegMat exampleZeroBudget.g ∧
      nonnegMat ([] : List (List ℚ)) ∧ 0 ≤ exampleZeroBudget.alpha ∧
      exampleZeroBudget.alpha ≤ 1 ∧ 0 ≤ exampleZeroBudget.tau ∧
      0 < exampleZeroBudget.sigma2 ∧ ptget exampleZeroBudget 0 = 0) ∧
    ((∀ k, zeroList ((stateAt exampleZeroBudget [] k).1.getD 0 [])) ∧
      (∀ k i, exampleZeroBudget.sigma2 ≤
          interference exampleZeroBudget (stateAt exampleZeroBudget [] k).2
            i ∧
        0 < interference exampleZeroBudget
          (stateAt exampleZeroBudget [] k).2 i)) :=
  ⟨⟨by decide, by decide, by decide, by decide, by decide, by decide,
      by decide, by decide, by decide, by decide⟩,
    c9_zero_budget_defender exampleZeroBudget [] 0 (by decide) (by decide)
      (by decide) (by decide) (by decide) (by decide) (by decide)
      (by decide) (by decide) (by decide)⟩

theorem map_fst_pairs (el : List ℕ) (v : ℕ → ℚ) :
    (el.map (fun i => (i, v i))).map Prod.fst = el := by
  rw [List.map_map]
  have hc : (Prod.fst ∘ fun i : ℕ => (i, v i)) = id := by
    funext i
    rfl
  rw [hc, List.map_id]

theorem getD_map_lt (l : List ℚ) (f : ℚ → ℚ) (j : ℕ) (h : j < l.length) :
    (l.map f).getD j 0 = f (l.getD j 0) := by
  rw [List.getD_eq_getElem _ _ (by simpa using h), List.getD_eq_getElem _ _ h,
    List.getElem_map]

theorem map_fst_pairs_const (el : List ℕ) (c : ℚ) :
    (el.map (fun i => (i, c))).map Prod.fst = el :=
  map_fst_pairs el (fun _ => c)

theorem scatter_const_getD_mem (n : ℕ) (el : List ℕ) (c : ℚ) (j : ℕ)
    (hnd : el.Nodup) (hj : j ∈ el) (hjn : j < n) :
    (scatter n (el.map (fun i => (i, c)))).getD j 0 = c :=
  scatter_getD_mem n _ j c (by rw [map_fst_pairs_const]; exact hnd)
    (List.mem_map_of_mem _ hj) hjn

theorem scatter_const_getD_not_mem (n : ℕ) (el : List ℕ) (c : ℚ) (j : ℕ)
    (hj : j ∉ el) : (scatter n (el.map (fun i => (i, c)))).getD j 0 = 0 :=
  scatter_getD_not_mem n _ j (by rw [map_fst_pairs_const]; exact hj)

/-- C7: when `topK` is at least the number of eligible channels and all
eligible channels carry the same perceived-value score
`x_owner[i]·g[m][i]`, the `J2_topK` strategy returns exactly the row the
`J1_uniform` strategy returns on the same state (the equal split of
`PJ[m]` over the eligible set, and the all-zero row when the eligible set
is empty). -/
theorem c7_topk_matches_uniform (P : EqParams) (m : ℕ) (y x : Mat) (s : ℚ)
    (hJ2 : P.jammerStrategy = JammerStrategy.J2_topK)
    (hK : (eligibleList P (getActiveSet x P)).length ≤ P.topK)
    (hscore : ∀ i ∈ eligibleList P (getActiveSet x P),
      mget x (cfg P i).owner i * gget P m i = s)
    (hPJ : 0 ≤ pjget P m) :
    applyJammerStrategy m y x P (getActiveSet x P) =
      applyJammerStrategy m y x
        { P with jammerStrategy := JammerStrategy.J1_uniform }
        (getActiveSet x P) := by
  unfold applyJammerStrategy
  by_cases hA : (getActiveSet x P).isEmpty
  · rw [if_pos hA, if_pos hA]
  · rw [if_neg hA, if_neg hA, hJ2]
    dsimp only
    have hpj : pjget { P with jammerStrategy := JammerStrategy.J1_uniform } =
        pjget P := rfl
    have hef : eligFilter
        { P with jammerStrategy := JammerStrategy.J1_uniform } =
        eligFilter P := rfl
    rw [hpj, hef]
    have hsorted : sortScoredDesc
        ((List.filter (eligFilter P) (getActiveSet x P)).map
          (fun i => (i, mget x (cfg P i).owner i * gget P m i))) =
        (List.filter (eligFilter P) (getActiveSet x P)).map
          (fun i => (i, mget x (cfg P i).owner i * gget P m i)) := by
      refine sortScoredDesc_all_eq _ s (fun u hu => ?_)
      obtain ⟨i, hi, rfl⟩ := List.mem_map.mp hu
      exact hscore i hi
    rw [hsorted]
    have hmin : P.topK ⊓ ((List.filter (eligFilter P)
        (getActiveSet x P)).map
          (fun i => (i, mget x (cfg P i).owner i * gget P m i))).length =
        ((List.filter (eligFilter P) (getActiveSet x P)).map
          (fun i => (i, mget x (cfg P i).owner i * gget P m i))).length := by
      rw [List.length_map]
      exact Nat.min_eq_right hK
    rw [hmin, List.take_length]
    by_cases hel : List.filter (eligFilter P) (getActiveSet x P) = []
    · rw [hel]
      simp [scatter, writeAll]
    · have hndel : (List.filter (eligFilter P) (getActiveSet x P)).Nodup :=
        (getActiveSet_nodup x P).filter _
      have hltel : ∀ i ∈ List.filter (eligFilter P) (getActiveSet x P),
          i < P.N := fun i hi =>
        getActiveSet_lt x P i (List.mem_of_mem_filter hi)
      have hlp : 0 < (List.filter (eligFilter P) (getActiveSet x P)).length :=
        List.length_pos.mpr hel
      have helq : ((List.filter (eligFilter P)
          (getActiveSet x P)).length : ℚ) ≠ 0 := by
        exact_mod_cast Nat.pos_iff_ne_zero.mp hlp
      have hAne : getActiveSet x P ≠ [] := by
        intro h
        apply hA
        rw [h]
        rfl
      have hAlen : 0 < (getActiveSet x P).length := List.length_pos.mpr hAne
      have hAq : ((getActiveSet x P).length : ℚ) ≠ 0 := by
        exact_mod_cast Nat.pos_iff_ne_zero.mp hAlen
      have htot : (List.map Prod.snd ((List.filter (eligFilter P)
          (getActiveSet x P)).map
            (fun i => (i, mget x (cfg P i).owner i * gget P m i)))).sum =
          ((List.filter (eligFilter P) (getActiveSet x P)).length : ℚ) *
            s := by
        rw [List.map_map]
        have hconst : (List.filter (eligFilter P) (getActiveSet x P)).map
            (Prod.snd ∘ fun i =>
              (i, mget x (cfg P i).owner i * gget P m i)) =
            (List.filter (eligFilter P) (getActiveSet x P)).map
              (fun _ => s) :=
          List.map_congr_left (fun i hi => hscore i hi)
        rw [hconst, sum_map_const_list]
      by_cases hPJ0 : pjget P m = 0
      · have hc1 : (List.filter (eligFilter P) (getActiveSet x P)).map
            (fun i => (i, pjget P m / ((getActiveSet x P).length : ℚ))) =
            (List.filter (eligFilter P) (getActiveSet x P)).map
              (fun i => (i, (0 : ℚ))) :=
          List.map_congr_left (fun i _ => by rw [hPJ0, zero_div])
        rw [hc1]
        have hsum0 : (scatter P.N ((List.filter (eligFilter P)
            (getActiveSet x P)).map (fun i => (i, (0 : ℚ))))).sum = 0 := by
          rw [const_scatter_sum _ _ _ hndel hltel]
          ring
        have hnlt : ¬(0 < (scatter P.N ((List.filter (eligFilter P)
            (getActiveSet x P)).map (fun i => (i, (0 : ℚ))))).sum) := by
          rw [hsum0]
          exact lt_irrefl 0
        rw [if_neg hnlt, List.map_map]
        have hzl : (List.filter (eligFilter P) (getActiveSet x P)).map
            ((fun t : ℕ × ℚ =>
              (t.1,
                if 0 < (List.map Prod.snd ((List.filter (eligFilter P)
                    (getActiveSet x P)).map (fun i =>
                      (i, mget x (cfg P i).owner i * gget P m i)))).sum then
                  t.2 / (List.map Prod.snd ((List.filter (eligFilter P)
                    (getActiveSet x P)).map (fun i =>
                      (i, mget x (cfg P i).owner i * gget P m i)))).sum *
                    pjget P m
                else pjget P m / (((List.filter (eligFilter P)
                    (getActiveSet x P)).map (fun i =>
                      (i, mget x (cfg P i).owner i *
                        gget P m i))).length : ℚ))) ∘
              (fun i => (i, mget x (cfg P i).owner i * gget P m i))) =
            (List.filter (eligFilter P) (getActiveSet x P)).map
              (fun i => (i, (0 : ℚ))) := by
          refine List.map_congr_left (fun i hi => ?_)
          dsimp only [Function.comp]
          split_ifs
          · rw [hPJ0, mul_zero]
          · rw [hPJ0, zero_div]
        rw [hzl]
      · have hPJpos : 0 < pjget P m := lt_of_le_of_ne hPJ (Ne.symm hPJ0)
        trans scatter P.N ((List.filter (eligFilter P)
          (getActiveSet x P)).map (fun i => (i, pjget P m /
            (((List.filter (eligFilter P)
              (getActiveSet x P)).length : ℚ)))))
        · congr 1
          rw [List.map_map]
          refine List.map_congr_left (fun i hi => ?_)
          dsimp only [Function.comp]
          rw [htot, hscore i hi]
          by_cases hts : 0 < ((List.filter (eligFilter P)
              (getActiveSet x P)).length : ℚ) * s
          · rw [if_pos hts]
            have hspos : 0 < s := by
              by_contra hns
              push_neg at hns
              have hle : ((List.filter (eligFilter P)
                  (getActiveSet x P)).length : ℚ) * s ≤ 0 :=
                mul_nonpos_of_nonneg_of_nonpos (by positivity) hns
              linarith
            have hval : s / (((List.filter (eligFilter P)
                (getActiveSet x P)).length : ℚ) * s) * pjget P m =
                pjget P m / ((List.filter (eligFilter P)
                  (getActiveSet x P)).length : ℚ) := by
              rw [mul_comm (((List.filter (eligFilter P)
                (getActiveSet x P)).length : ℚ)) s, ← div_div,
                div_self (ne_of_gt hspos), one_div, inv_mul_eq_div]
            rw [hval]
          · rw [if_neg hts, List.length_map]
        · have hs1 : (scatter P.N ((List.filter (eligFilter P)
              (getActiveSet x P)).map (fun i => (i, pjget P m /
                (((getActiveSet x P).length : ℚ)))))).sum =
              ((List.filter (eligFilter P)
                (getActiveSet x P)).length : ℚ) *
                (pjget P m / ((getActiveSet x P).length : ℚ)) :=
            const_scatter_sum _ _ _ hndel hltel
          rw [if_pos (by
            rw [hs1]
            exact mul_pos (by exact_mod_cast hlp)
              (div_pos hPJpos (by exact_mod_cast hAlen)))]
          refine List.ext_getElem ?_ ?_
          · rw [scatter_length, List.length_map, scatter_length]
          · intro j h1 h2
            have hjN : j < P.N := by
              rw [scatter_length] at h1
              exact h1
            rw [← List.getD_eq_getElem _ 0 h1, ← List.getD_eq_getElem _ 0 h2]
            by_cases hjel : j ∈ List.filter (eligFilter P) (getActiveSet x P)
            · rw [scatter_const_getD_mem P.N _ _ j hndel hjel hjN]
              rw [getD_map_lt _ _ j (by rw [scatter_length]; exact hjN)]
              rw [scatter_const_getD_mem P.N _ _ j hndel hjel hjN]
              rw [hs1]
              have hBne : pjget P m / ((getActiveSet x P).length : ℚ) ≠ 0 :=
                div_ne_zero (ne_of_gt hPJpos) hAq
              field_simp
              ring
            · rw [scatter_const_getD_not_mem _ _ _ j hjel]
              rw [getD_map_lt _ _ j (by rw [scatter_length]; exact hjN)]
              rw [scatter_const_getD_not_mem _ _ _ j hjel]
              rw [zero_div, zero_mul]

set_option maxRecDepth 20000 in
unseal Rat.add Rat.mul Rat.sub Rat.inv in
theorem c7_witness :
    (exampleTwoChannels.jammerStrategy = JammerStrategy.J2_topK ∧
      (eligibleList exampleTwoChannels
        (getActiveSet [[1, 1]] exampleTwoChannels)).length ≤
        exampleTwoChannels.topK ∧
      (∀ i ∈ eligibleList exampleTwoChannels
          (getActiveSet [[1, 1]] exampleTwoChannels),
        mget [[1, 1]] (cfg exampleTwoChannels i).owner i *
          gget exampleTwoChannels 0 i = 2) ∧
      0 ≤ pjget exampleTwoChannels 0) ∧
    applyJammerStrategy 0 [[0, 0]] [[1, 1]] exampleTwoChannels
        (getActiveSet [[1, 1]] exampleTwoChannels) =
      applyJammerStrategy 0 [[0, 0]] [[1, 1]]
        { exampleTwoChannels with
          jammerStrategy := JammerStrategy.J1_uniform }
        (getActiveSet [[1, 1]] exampleTwoChannels) :=
  ⟨⟨by decide, by decide, by decide, by decide⟩,
    c7_topk_matches_uniform exampleTwoChannels 0 [[0, 0]] [[1, 1]] 2
      (by decide) (by decide) (by decide) (by decide)⟩

end NChannel
